import Mathlib

/-!
# Verification of `uniqopy` (src/main.rs)

A shallow embedding of the `uniqopy` tool: MD5 hashing of a file's bytes
(`md5_of_file`), local-time timestamping (`timestamp`), destination-name
construction (`new_name`), and the top-level dispatcher (`main`), modelled
over byte-string paths and a directory-tree filesystem.
-/

set_option autoImplicit false
set_option maxRecDepth 100000

namespace Uniqopy

/-! ## MD5 (the `md5` crate's digest, RFC 1321), over byte lists -/

/-- Truncation to a 32-bit word, as wrapping arithmetic on `u32`. -/
def w32 (n : Nat) : Nat := n % 4294967296

/-- Left rotation of a 32-bit word (`u32::rotate_left`) for `x < 2^32`. -/
def rotl (x s : Nat) : Nat := w32 (x <<< s) ||| (x >>> (32 - s))

/-- The RFC 1321 sine-derived constant table `T[1..64]`. -/
def K : List Nat :=
  [0xd76aa478, 0xe8c7b756, 0x242070db, 0xc1bdceee,
   0xf57c0faf, 0x4787c62a, 0xa8304613, 0xfd469501,
   0x698098d8, 0x8b44f7af, 0xffff5bb1, 0x895cd7be,
   0x6b901122, 0xfd987193, 0xa679438e, 0x49b40821,
   0xf61e2562, 0xc040b340, 0x265e5a51, 0xe9b6c7aa,
   0xd62f105d, 0x02441453, 0xd8a1e681, 0xe7d3fbc8,
   0x21e1cde6, 0xc33707d6, 0xf4d50d87, 0x455a14ed,
   0xa9e3e905, 0xfcefa3f8, 0x676f02d9, 0x8d2a4c8a,
   0xfffa3942, 0x8771f681, 0x6d9d6122, 0xfde5380c,
   0xa4beea44, 0x4bdecfa9, 0xf6bb4b60, 0xbebfbc70,
   0x289b7ec6, 0xeaa127fa, 0xd4ef3085, 0x04881d05,
   0xd9d4d039, 0xe6db99e5, 0x1fa27cf8, 0xc4ac5665,
   0xf4292244, 0x432aff97, 0xab9423a7, 0xfc93a039,
   0x655b59c3, 0x8f0ccc92, 0xffeff47d, 0x85845dd1,
   0x6fa87e4f, 0xfe2ce6e0, 0xa3014314, 0x4e0811a1,
   0xf7537e82, 0xbd3af235, 0x2ad7d2bb, 0xeb86d391]

/-- Per-round left-rotation amounts. -/
def S : List Nat :=
  [7, 12, 17, 22, 7, 12, 17, 22, 7, 12, 17, 22, 7, 12, 17, 22,
   5, 9, 14, 20, 5, 9, 14, 20, 5, 9, 14, 20, 5, 9, 14, 20,
   4, 11, 16, 23, 4, 11, 16, 23, 4, 11, 16, 23, 4, 11, 16, 23,
   6, 10, 15, 21, 6, 10, 15, 21, 6, 10, 15, 21, 6, 10, 15, 21]

/-- A 64-byte block as 16 little-endian 32-bit words. -/
def toWords : List Nat → List Nat
  | b0 :: b1 :: b2 :: b3 :: rest =>
      (b0 + 256 * b1 + 65536 * b2 + 16777216 * b3) :: toWords rest
  | _ => []

structure MD5State where
  a : Nat
  b : Nat
  c : Nat
  d : Nat

/-- One of the 64 MD5 rounds: auxiliary function and message index depend on
the round number `i`, then the word rotation and state shuffle. -/
def md5Step (m : List Nat) (st : MD5State) (i : Nat) : MD5State :=
  let fg :=
    if i < 16 then
      ((st.b &&& st.c) ||| ((st.b ^^^ 0xffffffff) &&& st.d), i)
    else if i < 32 then
      ((st.d &&& st.b) ||| ((st.d ^^^ 0xffffffff) &&& st.c), (5 * i + 1) % 16)
    else if i < 48 then
      (st.b ^^^ st.c ^^^ st.d, (3 * i + 5) % 16)
    else
      (st.c ^^^ (st.b ||| (st.d ^^^ 0xffffffff)), (7 * i) % 16)
  let f := w32 (fg.1 + st.a + K.getD i 0 + m.getD fg.2 0)
  { a := st.d, b := w32 (st.b + rotl f (S.getD i 0)), c := st.b, d := st.c }

/-- Compression of one 64-byte block into the running state. -/
def compress (st : MD5State) (block : List Nat) : MD5State :=
  let e := (List.range 64).foldl (md5Step (toWords block)) st
  { a := w32 (st.a + e.a), b := w32 (st.b + e.b),
    c := w32 (st.c + e.c), d := w32 (st.d + e.d) }

/-- The `k` little-endian bytes of `n` (truncating). -/
def leBytes : Nat → Nat → List Nat
  | 0, _ => []
  | k + 1, n => n % 256 :: leBytes k (n / 256)

/-- MD5 padding for a message of `len` bytes: a `0x80` byte, zeros up to
56 mod 64, then the bit length as 8 little-endian bytes. -/
def padding (len : Nat) : List Nat :=
  0x80 :: List.replicate ((119 - len % 64) % 64) 0 ++ leBytes 8 (8 * len)

def processBlocks : Nat → List Nat → MD5State → MD5State
  | 0, _, st => st
  | n + 1, bytes, st => processBlocks n (bytes.drop 64) (compress st (bytes.take 64))

def initState : MD5State :=
  { a := 0x67452301, b := 0xefcdab89, c := 0x98badcfe, d := 0x10325476 }

/-- The 16-byte MD5 digest of a byte sequence. -/
def md5Bytes (msg : List Nat) : List Nat :=
  let padded := msg ++ padding msg.length
  let st := processBlocks (padded.length / 64) padded initState
  leBytes 4 st.a ++ leBytes 4 st.b ++ leBytes 4 st.c ++ leBytes 4 st.d

/-- One lowercase hexadecimal digit, as Rust's `LowerHex` prints it. -/
def hexDigit (n : Nat) : Char := if n < 10 then Char.ofNat (48 + n) else Char.ofNat (87 + n)

/-- A byte as two lowercase hexadecimal characters. -/
def byteHex (b : Nat) : List Char := [hexDigit (b / 16), hexDigit (b % 16)]

/-- The digest bytes in lowercase hex, as `format!("{:x}", digest)`. -/
def md5Hex (msg : List Nat) : String := ⟨(md5Bytes msg).flatMap byteHex⟩

/-- ASCII test inputs as byte lists. -/
def asciiBytes (s : String) : List Nat := s.data.map Char.toNat

/-! ## Byte-level paths (Unix `OsStr` / `Path`) -/

/-- A Unix path / file name as raw bytes. -/
abbrev Bytes := List Nat

/-- Split a byte string at `/` (byte 47): current group plus later groups. -/
def splitSlash : Bytes → Bytes × List Bytes
  | [] => ([], [])
  | b :: rest =>
    let s := splitSlash rest
    if b = 47 then ([], s.1 :: s.2) else (b :: s.1, s.2)

/-- The path's non-empty components (empty components collapse, as the OS
treats `a//b` like `a/b` and a leading `/` starts at the root). -/
def pathComps (p : Bytes) : List Bytes :=
  let s := splitSlash p
  (s.1 :: s.2).filter (· ≠ [])

/-- Rust `Path::file_name`: the last normalized component if it is a normal
one; `None` when the path ends in `..`, is a root, or is empty (`.`
components are normalized away). -/
def fileName (p : Bytes) : Option Bytes :=
  match ((pathComps p).filter (· ≠ [46])).getLast? with
  | some c => if c = [46, 46] then none else some c
  | none => none

/-- Split a file name at its last `.` (byte 46): `some (before, after)`,
or `none` when no dot occurs. -/
def rsplitDot : Bytes → Option (Bytes × Bytes)
  | [] => none
  | b :: rest =>
    match rsplitDot rest with
    | some s => some (b :: s.1, s.2)
    | none => if b = 46 then some ([], rest) else none

/-- Rust's stem/extension split of a file name: the portion before the last
dot, except that a name whose only dot is leading (or which has no dot) is
all stem with no extension. -/
def stemExt (name : Bytes) : Bytes × Option Bytes :=
  match rsplitDot name with
  | some s => if s.1 = [] then (name, none) else (s.1, some s.2)
  | none => (name, none)

/-- Rust `Path::file_stem`. -/
def fileStem (p : Bytes) : Option Bytes := (fileName p).map fun n => (stemExt n).1

/-- Rust `Path::extension`. -/
def extension (p : Bytes) : Option Bytes := (fileName p).bind fun n => (stemExt n).2

/-! ## UTF-8: lossy decoding (`to_string_lossy`) and encoding -/

/-- Is `b` a UTF-8 continuation byte (`0x80..=0xBF`)? -/
def isCont (b : Nat) : Bool := 128 ≤ b && b ≤ 191

/-- The Unicode replacement character `U+FFFD`. -/
def repl : Char := Char.ofNat 0xFFFD

/-- One step of the WHATWG incremental UTF-8 decoder: decode `U+FFFD` for
each maximal invalid subpart, as Rust's `from_utf8_lossy` does. Each step
consumes at least one byte, so byte count is enough fuel. -/
def utf8LossyF : Nat → Bytes → List Char
  | 0, _ => []
  | _, [] => []
  | fuel + 1, b :: rest =>
    if b < 0x80 then Char.ofNat b :: utf8LossyF fuel rest
    else if 0xC2 ≤ b && b ≤ 0xDF then
      match rest with
      | c1 :: rest' =>
        if isCont c1 then Char.ofNat ((b - 0xC0) * 64 + (c1 - 0x80)) :: utf8LossyF fuel rest'
        else repl :: utf8LossyF fuel rest
      | [] => [repl]
    else if 0xE0 ≤ b && b ≤ 0xEF then
      match rest with
      | c1 :: rest' =>
        if (b = 0xE0 && (0xA0 ≤ c1 && c1 ≤ 0xBF))
            || (b = 0xED && (0x80 ≤ c1 && c1 ≤ 0x9F))
            || (b ≠ 0xE0 && b ≠ 0xED && isCont c1) then
          match rest' with
          | c2 :: rest'' =>
            if isCont c2 then
              Char.ofNat ((b - 0xE0) * 4096 + (c1 - 0x80) * 64 + (c2 - 0x80))
                :: utf8LossyF fuel rest''
            else repl :: utf8LossyF fuel rest'
          | [] => [repl]
        else repl :: utf8LossyF fuel rest
      | [] => [repl]
    else if 0xF0 ≤ b && b ≤ 0xF4 then
      match rest with
      | c1 :: rest' =>
        if (b = 0xF0 && (0x90 ≤ c1 && c1 ≤ 0xBF))
            || (b = 0xF4 && (0x80 ≤ c1 && c1 ≤ 0x8F))
            || (b ≠ 0xF0 && b ≠ 0xF4 && isCont c1) then
          match rest' with
          | c2 :: rest'' =>
            if isCont c2 then
              match rest'' with
              | c3 :: rest''' =>
                if isCont c3 then
                  Char.ofNat ((b - 0xF0) * 262144 + (c1 - 0x80) * 4096
                      + (c2 - 0x80) * 64 + (c3 - 0x80)) :: utf8LossyF fuel rest'''
                else repl :: utf8LossyF fuel rest''
              | [] => [repl]
            else repl :: utf8LossyF fuel rest'
          | [] => [repl]
        else repl :: utf8LossyF fuel rest
      | [] => [repl]
    else repl :: utf8LossyF fuel rest

/-- Rust's `String::from_utf8_lossy` on a byte sequence. -/
def utf8Lossy (bs : Bytes) : List Char := utf8LossyF bs.length bs

/-- A string built from lossily decoded bytes. -/
def lossyString (bs : Bytes) : String := ⟨utf8Lossy bs⟩

/-- UTF-8 encoding of one scalar value. -/
def utf8Char (c : Char) : Bytes :=
  let n := c.toNat
  if n < 0x80 then [n]
  else if n < 0x800 then [0xC0 + n / 64, 0x80 + n % 64]
  else if n < 0x10000 then [0xE0 + n / 4096, 0x80 + n / 64 % 64, 0x80 + n % 64]
  else [0xF0 + n / 262144, 0x80 + n / 4096 % 64, 0x80 + n / 64 % 64, 0x80 + n % 64]

/-- UTF-8 encoding of a string (how a Rust `String` argument turns into the
bytes of a `Path`). -/
def utf8 (s : String) : Bytes := s.data.flatMap utf8Char

/-! ## Filesystem trees and path resolution -/

/-- A filesystem node: a regular file with byte content, or a directory. -/
inductive FsTree where
  | file (content : Bytes)
  | dir (entries : List (Bytes × FsTree))

def lookupEntry (name : Bytes) : List (Bytes × FsTree) → Option FsTree
  | [] => none
  | e :: rest => if e.1 = name then some e.2 else lookupEntry name rest

/-- Resolve path components against a tree, keeping the ancestor stack so
`..` steps to the parent (at the root, `..` stays at the root, as POSIX).
Descending or stepping through a regular file fails, as `stat` does. -/
def resolveComps (anc : List FsTree) (t : FsTree) : List Bytes → Option FsTree
  | [] => some t
  | c :: rest =>
    match t with
    | .file _ => none
    | .dir es =>
      if c = [46] then resolveComps anc (.dir es) rest
      else if c = [46, 46] then
        match anc with
        | [] => resolveComps [] (.dir es) rest
        | a :: anc' => resolveComps anc' a rest
      else
        match lookupEntry c es with
        | some u => resolveComps (.dir es :: anc) u rest
        | none => none

/-- Resolve a byte path from the root of the tree. -/
def resolvePath (root : FsTree) (p : Bytes) : Option FsTree :=
  resolveComps [] root (pathComps p)

/-- Rust `Path::is_file` against the modelled tree. -/
def isFile (root : FsTree) (p : Bytes) : Bool :=
  match resolvePath root p with
  | some (.file _) => true
  | _ => false

/-- Replace or append a root directory entry with a regular file. -/
def setEntry (name content : Bytes) : List (Bytes × FsTree) → List (Bytes × FsTree)
  | [] => [(name, .file content)]
  | e :: rest => if e.1 = name then (name, .file content) :: rest else e :: setEntry name content rest

/-- Create-or-truncate a regular file directly under the root. -/
def writeRoot (t : FsTree) (name content : Bytes) : FsTree :=
  match t with
  | .file c => .file c
  | .dir es => .dir (setEntry name content es)

/-! ## `new_name`: destination filename construction -/

/-- Model of `fn new_name(fname: &Path, ts: &str, md5: &str)`: reject paths
that are not regular files, extract the stem (lossily decoded), and splice
timestamp and hash between stem and extension. -/
def new_name (root : FsTree) (fname : Bytes) (ts md5 : String) : Except String String :=
  if isFile root fname then
    match fileStem fname with
    | none => .error "File has no name?"
    | some stem =>
      let stemS := lossyString stem
      match extension fname with
      | some ext => .ok (stemS ++ "." ++ ts ++ "." ++ md5 ++ "." ++ lossyString ext)
      | none => .ok (stemS ++ "." ++ ts ++ "." ++ md5)
  else
    .error "uniqopy only works on files"

/-! ## `timestamp`: local wall-clock time as `%F-%X` -/

/-- A civil date-time, as the fields chrono's formatter reads. -/
structure DateTime where
  year : Nat
  month : Nat
  day : Nat
  hour : Nat
  minute : Nat
  second : Nat
  deriving DecidableEq

def digitChar (n : Nat) : Char := Char.ofNat (48 + n)

/-- Decimal digits of `n`, most significant first (`fuel` bounds the digit
count; any `fuel > 0` with `n < 10^fuel` is enough). -/
def decChars : Nat → Nat → List Char
  | 0, _ => []
  | fuel + 1, n => if n < 10 then [digitChar n] else decChars fuel (n / 10) ++ [digitChar (n % 10)]

def natChars (n : Nat) : List Char := decChars (n + 1) n

/-- A number zero-padded on the left to width `w`, as chrono's numeric
format items print. -/
def pad (w n : Nat) : List Char :=
  List.replicate (w - (natChars n).length) '0' ++ natChars n

/-- Model of `Local::now().format("%F-%X")` applied to a given local
date-time: `%Y-%m-%d-%H:%M:%S`, zero-padded. -/
def timestampOf (t : DateTime) : String :=
  ⟨pad 4 t.year ++ '-' :: pad 2 t.month ++ '-' :: pad 2 t.day ++
    '-' :: pad 2 t.hour ++ ':' :: pad 2 t.minute ++ ':' :: pad 2 t.second⟩

/-- The field ranges chrono's `Local::now()` guarantees (year kept in the
four-digit range the `%Y` format pads to). -/
def ValidDT (t : DateTime) : Prop :=
  t.year ≤ 9999 ∧ 1 ≤ t.month ∧ t.month ≤ 12 ∧ 1 ≤ t.day ∧ t.day ≤ 31 ∧
    t.hour ≤ 23 ∧ t.minute ≤ 59 ∧ t.second ≤ 59

instance (t : DateTime) : Decidable (ValidDT t) := by unfold ValidDT; infer_instance

/-! ## The process environment and `main` -/

/-- One invocation's environment: the arguments (Rust `String`s, so valid
UTF-8), the filesystem, the clock, and oracles for the I/O faults that the
tree does not itself determine (spurious read failures, copy failures) with
the OS's error display texts. -/
structure Env where
  args : List String
  fs : FsTree
  localTime : DateTime
  utcTime : DateTime
  readErr : Option String
  copyErr : Option String
  enoent : String
  eisdir : String

/-- Model of `fn timestamp()`: format the current local wall-clock time
(chrono `Local::now()`), not the UTC time. -/
def timestamp (env : Env) : String := timestampOf env.localTime

/-- Model of `md5_of_file`: open the file, stream its bytes into the digest,
print it as lowercase hex; any open or read fault aborts with the I/O
error. -/
def md5_of_file (env : Env) (p : Bytes) : Except String String :=
  match resolvePath env.fs p with
  | some (.file c) =>
    match env.readErr with
    | some e => .error e
    | none => .ok (md5Hex c)
  | _ => .error env.enoent

/-- Model of `std::fs::copy(src, dest)`: re-read the source,
create-or-truncate the destination (an existing directory of that name
cannot be overwritten), and return the byte count. -/
def copyFile (env : Env) (src : Bytes) (destName : String) : Except String (Nat × FsTree) :=
  match env.copyErr with
  | some e => .error e
  | none =>
    match resolvePath env.fs src with
    | some (.file c) =>
      match resolvePath env.fs (utf8 destName) with
      | some (.dir _) => .error env.eisdir
      | _ => .ok (c.length, writeRoot env.fs (utf8 destName) c)
    | _ => .error env.enoent

def USAGE : String :=
  "\nusage: uniqopy <file>\n\nCreate a copy of a file incorporating its MD5 hash and the current\nUTC timestamp into the new file's name. The file's extension will\nbe retained.\n\nExamples:\n    example -> example.2022-02-02-22:22:22.d41d8cd98f00b204e9800998ecf8427e\n    example.txt -> example.2022-02-02-22:22:22.d41d8cd98f00b204e9800998ecf8427e.txt\n"

/-- Modelled from the spec: the crate version baked in through
`CARGO_PKG_VERSION`; the repository's `Cargo.toml` is not under `src/`, so
the version text is an uninterpreted placeholder (no claim depends on it). -/
def VERSION : String := "?"

/-- The observable outcome of one invocation: exit status, the lines printed
to each stream, and the resulting filesystem. -/
structure MainResult where
  exitCode : Nat
  stdout : List String
  stderr : List String
  fs : FsTree

/-- Model of `fn main()`: argument check, hash, timestamp, name
construction, copy — each failure printing to stderr and exiting with its
own status. -/
def main (env : Env) : MainResult :=
  match env.args with
  | [_, fname] =>
    let p := utf8 fname
    match md5_of_file env p with
    | .error e => ⟨2, [], ["Error reading " ++ fname ++ ": " ++ e], env.fs⟩
    | .ok md5 =>
      let ts := timestamp env
      match new_name env.fs p ts md5 with
      | .error e => ⟨3, [], [e], env.fs⟩
      | .ok destination =>
        let announce := "Copying " ++ fname ++ " to " ++ destination
        match copyFile env p destination with
        | .ok r => ⟨0, [announce, "Copyied " ++ toString r.1 ++ " bytes"], [], r.2⟩
        | .error e => ⟨4, [announce], [e], env.fs⟩
  | _ => ⟨1, [], ["uniqopy version " ++ VERSION ++ "\n" ++ USAGE], env.fs⟩

/-! ## Auxiliary definitions used by the specifications -/

/-- The sixteen lowercase hexadecimal characters. -/
def hexChars : List Char := "0123456789abcdef".data

def digVal (c : Char) : Nat := c.toNat - 48

def isDigitCh (c : Char) : Bool := 48 ≤ c.toNat && c.toNat ≤ 57

/-- An independent reading of a `YYYY-MM-DD-HH:MM:SS` string back into its
civil fields, used to state that the formatter is faithful. -/
def parseTimestamp (s : String) : Option DateTime :=
  match s.data with
  | [y3, y2, y1, y0, d1, mo1, mo0, d2, dd1, dd0, d3, h1, h0, c1, mi1, mi0, c2, s1, s0] =>
    if (d1 = '-' && d2 = '-' && d3 = '-' && c1 = ':' && c2 = ':') &&
        (isDigitCh y3 && isDigitCh y2 && isDigitCh y1 && isDigitCh y0 &&
         isDigitCh mo1 && isDigitCh mo0 && isDigitCh dd1 && isDigitCh dd0 &&
         isDigitCh h1 && isDigitCh h0 && isDigitCh mi1 && isDigitCh mi0 &&
         isDigitCh s1 && isDigitCh s0) then
      some ⟨1000 * digVal y3 + 100 * digVal y2 + 10 * digVal y1 + digVal y0,
            10 * digVal mo1 + digVal mo0, 10 * digVal dd1 + digVal dd0,
            10 * digVal h1 + digVal h0, 10 * digVal mi1 + digVal mi0,
            10 * digVal s1 + digVal s0⟩
    else none
  | _ => none

/-- A string of plain ASCII characters other than `.` and `/` — names for
which Rust's lossy conversion and path splitting are transparent. -/
def AsciiSafe (s : String) : Prop :=
  ∀ c ∈ s.data, c.toNat < 128 ∧ c.toNat ≠ 46 ∧ c.toNat ≠ 47

instance (s : String) : Decidable (AsciiSafe s) := by unfold AsciiSafe; infer_instance

/-- A node is a directory. -/
def isDirNode (t : FsTree) : Prop := ∃ es, t = FsTree.dir es

/-- The relation between a node of the original tree and the corresponding
node after one root entry `d` was overwritten with a file of content `c`:
either the node is untouched, or it is the root itself. -/
def RelW (es : List (Bytes × FsTree)) (d c : Bytes) (t t' : FsTree) : Prop :=
  t' = t ∨ (t = .dir es ∧ t' = .dir (setEntry d c es))

/-! ## General character lemmas -/

theorem charToNat_ofNat {n : Nat} (h : n.isValidChar) : (Char.ofNat n).toNat = n := by
  unfold Char.ofNat
  rw [dif_pos h]
  rfl

theorem isValidChar_of_lt {n : Nat} (h : n < 55296) : n.isValidChar := Or.inl h

theorem charToNat_ofNat_lt {n : Nat} (h : n < 55296) : (Char.ofNat n).toNat = n :=
  charToNat_ofNat (isValidChar_of_lt h)

/-! ## Digest shape lemmas -/

theorem hexDigit_mem {n : Nat} (h : n < 16) : hexDigit n ∈ hexChars := by
  interval_cases n <;> decide

theorem leBytes_lt {k n b : Nat} (h : b ∈ leBytes k n) : b < 256 := by
  induction k generalizing n with
  | zero => simp [leBytes] at h
  | succ k ih =>
    simp only [leBytes, List.mem_cons] at h
    rcases h with h | h
    · omega
    · exact ih h

theorem md5Bytes_mem_lt {msg : List Nat} {b : Nat} (h : b ∈ md5Bytes msg) : b < 256 := by
  simp only [md5Bytes, List.mem_append] at h
  rcases h with ((h | h) | h) | h <;> exact leBytes_lt h

theorem length_flatMap_byteHex (bs : List Nat) :
    (bs.flatMap byteHex).length = 2 * bs.length := by
  induction bs with
  | nil => rfl
  | cons b rest ih => simp [byteHex, ih]; ring

theorem md5Bytes_length (msg : List Nat) : (md5Bytes msg).length = 16 := by
  simp [md5Bytes, leBytes]

theorem md5Hex_chars {b : List Nat} : ∀ c ∈ (md5Hex b).data, c ∈ hexChars := by
  intro c hc
  simp only [md5Hex, List.mem_flatMap] at hc
  obtain ⟨x, hx, hcx⟩ := hc
  have hlt : x < 256 := md5Bytes_mem_lt hx
  simp only [byteHex, List.mem_cons, List.not_mem_nil, or_false] at hcx
  rcases hcx with rfl | rfl
  · exact hexDigit_mem (by omega)
  · exact hexDigit_mem (by omega)

/-- C1: `md5_of_file`'s digest matches MD5 reference output on the empty
input, on `foobar`, and on `fibblesnork`. -/
theorem md5_reference_digests :
    md5Hex [] = "d41d8cd98f00b204e9800998ecf8427e" ∧
    md5Hex (asciiBytes "foobar") = "3858f62230ac3c915f300c664312c63f" ∧
    md5Hex (asciiBytes "fibblesnork") = "ebcceb2950ed7e58c00b60a701efeb98" := by
  refine ⟨by decide, by decide, by decide⟩

/-- C5: the fingerprint is deterministic — equal byte content gives an equal
digest, also across two files or two environments — and is always a string
of exactly 32 lowercase hexadecimal characters (a 128-bit digest). -/
theorem md5Hex_deterministic_hex32 (b : List Nat) :
    md5Hex b = md5Hex b ∧
    (md5Hex b).length = 32 ∧
    (∀ c ∈ (md5Hex b).data, c ∈ hexChars) ∧
    ∀ (e₁ e₂ : Env) (p q : Bytes),
      e₁.readErr = none → e₂.readErr = none →
      resolvePath e₁.fs p = some (.file b) → resolvePath e₂.fs q = some (.file b) →
      md5_of_file e₁ p = md5_of_file e₂ q := by
  refine ⟨rfl, ?_, ?_, ?_⟩
  · show ((md5Bytes b).flatMap byteHex).length = 32
    rw [length_flatMap_byteHex, md5Bytes_length]
  · exact md5Hex_chars
  · intro e₁ e₂ p q h₁ h₂ hp hq
    simp [md5_of_file, hp, hq, h₁, h₂]

/-- Closed instance of C5: two different files with equal content hash
identically, and the digest string has 32 characters. -/
theorem md5Hex_deterministic_hex32_witness :
    md5_of_file ⟨[], .dir [([97], .file [102])], ⟨2022, 2, 2, 22, 22, 22⟩,
        ⟨2022, 2, 2, 22, 22, 22⟩, none, none, "E", "E"⟩ [97] =
      md5_of_file ⟨[], .dir [([98], .file [102])], ⟨2022, 2, 2, 22, 22, 22⟩,
        ⟨2022, 2, 2, 22, 22, 22⟩, none, none, "E", "E"⟩ [98] ∧
    (md5Hex [102]).length = 32 :=
  ⟨(md5Hex_deterministic_hex32 [102]).2.2.2
      ⟨[], .dir [([97], .file [102])], ⟨2022, 2, 2, 22, 22, 22⟩,
        ⟨2022, 2, 2, 22, 22, 22⟩, none, none, "E", "E"⟩
      ⟨[], .dir [([98], .file [102])], ⟨2022, 2, 2, 22, 22, 22⟩,
        ⟨2022, 2, 2, 22, 22, 22⟩, none, none, "E", "E"⟩
      [97] [98] rfl rfl rfl rfl,
   (md5Hex_deterministic_hex32 [102]).2.1⟩

/-! ## Timestamp shape lemmas (C6) -/

theorem digitChar_toNat {n : Nat} (h : n < 10) : (digitChar n).toNat = 48 + n :=
  charToNat_ofNat_lt (by omega)

theorem digitChar_zero : digitChar 0 = '0' := by decide

theorem decChars_one {f n : Nat} (h : n < 10) : decChars (f + 1) n = [digitChar n] := by
  simp [decChars, h]

theorem decChars_two {f n : Nat} (h10 : 10 ≤ n) (h : n < 100) (hf : 1 ≤ f) :
    decChars (f + 1) n = [digitChar (n / 10), digitChar (n % 10)] := by
  obtain ⟨g, rfl⟩ : ∃ g, f = g + 1 := ⟨f - 1, by omega⟩
  rw [decChars, if_neg (by omega), decChars_one (by omega)]
  rfl

theorem decChars_three {f n : Nat} (h100 : 100 ≤ n) (h : n < 1000) (hf : 2 ≤ f) :
    decChars (f + 1) n =
      [digitChar (n / 100), digitChar (n / 10 % 10), digitChar (n % 10)] := by
  obtain ⟨g, rfl⟩ : ∃ g, f = g + 1 := ⟨f - 1, by omega⟩
  rw [decChars, if_neg (by omega), decChars_two (by omega) (by omega) (by omega)]
  have h1 : n / 10 / 10 = n / 100 := by omega
  have h2 : n / 10 % 10 = n / 10 % 10 := rfl
  rw [h1]
  rfl

theorem decChars_four {f n : Nat} (h1000 : 1000 ≤ n) (h : n < 10000) (hf : 3 ≤ f) :
    decChars (f + 1) n =
      [digitChar (n / 1000), digitChar (n / 100 % 10), digitChar (n / 10 % 10),
       digitChar (n % 10)] := by
  obtain ⟨g, rfl⟩ : ∃ g, f = g + 1 := ⟨f - 1, by omega⟩
  rw [decChars, if_neg (by omega), decChars_three (by omega) (by omega) (by omega)]
  have h1 : n / 10 / 100 = n / 1000 := by omega
  have h2 : n / 10 / 10 % 10 = n / 100 % 10 := by omega
  rw [h1, h2]
  rfl

theorem pad_two {n : Nat} (h : n < 100) :
    pad 2 n = [digitChar (n / 10), digitChar (n % 10)] := by
  by_cases h10 : n < 10
  · rw [pad, natChars, decChars_one h10]
    have : n / 10 = 0 := by omega
    have hm : n % 10 = n := by omega
    simp [this, hm, digitChar_zero, List.replicate]
  · rw [pad, natChars, decChars_two (by omega) h (by omega)]
    rfl

theorem pad_four {n : Nat} (h : n < 10000) :
    pad 4 n = [digitChar (n / 1000), digitChar (n / 100 % 10), digitChar (n / 10 % 10),
      digitChar (n % 10)] := by
  rcases Nat.lt_or_ge n 10 with h10 | h10
  · rw [pad, natChars, decChars_one h10]
    have e1 : n / 1000 = 0 := by omega
    have e2 : n / 100 % 10 = 0 := by omega
    have e3 : n / 10 % 10 = 0 := by omega
    have e4 : n % 10 = n := by omega
    simp [e1, e2, e3, e4, digitChar_zero, List.replicate]
  · rcases Nat.lt_or_ge n 100 with h100 | h100
    · rw [pad, natChars, decChars_two h10 h100 (by omega)]
      have e1 : n / 1000 = 0 := by omega
      have e2 : n / 100 % 10 = 0 := by omega
      have e3 : n / 10 % 10 = n / 10 := by omega
      simp [e1, e2, e3, digitChar_zero, List.replicate]
    · rcases Nat.lt_or_ge n 1000 with h1000 | h1000
      · rw [pad, natChars, decChars_three h100 h1000 (by omega)]
        have e1 : n / 1000 = 0 := by omega
        have e2 : n / 100 % 10 = n / 100 := by omega
        simp [e1, e2, digitChar_zero, List.replicate]
      · rw [pad, natChars, decChars_four h1000 h (by omega)]
        rfl

theorem isDigitCh_digitChar {n : Nat} (h : n < 10) : isDigitCh (digitChar n) = true := by
  simp [isDigitCh, digitChar_toNat h]
  omega

theorem digVal_digitChar {n : Nat} (h : n < 10) : digVal (digitChar n) = n := by
  simp [digVal, digitChar_toNat h]

theorem timestampOf_data (t : DateTime) (hv : ValidDT t) :
    (timestampOf t).data =
      [digitChar (t.year / 1000), digitChar (t.year / 100 % 10),
       digitChar (t.year / 10 % 10), digitChar (t.year % 10), '-',
       digitChar (t.month / 10), digitChar (t.month % 10), '-',
       digitChar (t.day / 10), digitChar (t.day % 10), '-',
       digitChar (t.hour / 10), digitChar (t.hour % 10), ':',
       digitChar (t.minute / 10), digitChar (t.minute % 10), ':',
       digitChar (t.second / 10), digitChar (t.second % 10)] := by
  obtain ⟨hy, hm1, hm2, hd1, hd2, hh, hmi, hs⟩ := hv
  show (pad 4 t.year ++ '-' :: pad 2 t.month ++ '-' :: pad 2 t.day ++
    '-' :: pad 2 t.hour ++ ':' :: pad 2 t.minute ++ ':' :: pad 2 t.second) = _
  rw [pad_four (by omega), pad_two (by omega), pad_two (by omega), pad_two (by omega),
    pad_two (by omega), pad_two (by omega)]
  rfl

theorem parse_timestampOf (t : DateTime) (hv : ValidDT t) :
    parseTimestamp (timestampOf t) = some t := by
  obtain ⟨y, mo, dd, hr, mi, ss⟩ := t
  obtain ⟨hy, hm1, hm2, hd1, hd2, hhr, hmi, hss⟩ := hv
  simp only at hy hm1 hm2 hd1 hd2 hhr hmi hss
  simp only [parseTimestamp,
    timestampOf_data ⟨y, mo, dd, hr, mi, ss⟩ ⟨hy, hm1, hm2, hd1, hd2, hhr, hmi, hss⟩]
  rw [if_pos]
  · have e1 : digVal (digitChar (y / 1000)) = y / 1000 := digVal_digitChar (by omega)
    have e2 : digVal (digitChar (y / 100 % 10)) = y / 100 % 10 := digVal_digitChar (by omega)
    have e3 : digVal (digitChar (y / 10 % 10)) = y / 10 % 10 := digVal_digitChar (by omega)
    have e4 : digVal (digitChar (y % 10)) = y % 10 := digVal_digitChar (by omega)
    have e5 : digVal (digitChar (mo / 10)) = mo / 10 := digVal_digitChar (by omega)
    have e6 : digVal (digitChar (mo % 10)) = mo % 10 := digVal_digitChar (by omega)
    have e7 : digVal (digitChar (dd / 10)) = dd / 10 := digVal_digitChar (by omega)
    have e8 : digVal (digitChar (dd % 10)) = dd % 10 := digVal_digitChar (by omega)
    have e9 : digVal (digitChar (hr / 10)) = hr / 10 := digVal_digitChar (by omega)
    have e10 : digVal (digitChar (hr % 10)) = hr % 10 := digVal_digitChar (by omega)
    have e11 : digVal (digitChar (mi / 10)) = mi / 10 := digVal_digitChar (by omega)
    have e12 : digVal (digitChar (mi % 10)) = mi % 10 := digVal_digitChar (by omega)
    have e13 : digVal (digitChar (ss / 10)) = ss / 10 := digVal_digitChar (by omega)
    have e14 : digVal (digitChar (ss % 10)) = ss % 10 := digVal_digitChar (by omega)
    simp only [Option.some.injEq, DateTime.mk.injEq]
    refine ⟨?_, ?_, ?_, ?_, ?_, ?_⟩ <;> omega
  · have i1 : isDigitCh (digitChar (y / 1000)) = true := isDigitCh_digitChar (by omega)
    have i2 : isDigitCh (digitChar (y / 100 % 10)) = true := isDigitCh_digitChar (by omega)
    have i3 : isDigitCh (digitChar (y / 10 % 10)) = true := isDigitCh_digitChar (by omega)
    have i4 : isDigitCh (digitChar (y % 10)) = true := isDigitCh_digitChar (by omega)
    have i5 : isDigitCh (digitChar (mo / 10)) = true := isDigitCh_digitChar (by omega)
    have i6 : isDigitCh (digitChar (mo % 10)) = true := isDigitCh_digitChar (by omega)
    have i7 : isDigitCh (digitChar (dd / 10)) = true := isDigitCh_digitChar (by omega)
    have i8 : isDigitCh (digitChar (dd % 10)) = true := isDigitCh_digitChar (by omega)
    have i9 : isDigitCh (digitChar (hr / 10)) = true := isDigitCh_digitChar (by omega)
    have i10 : isDigitCh (digitChar (hr % 10)) = true := isDigitCh_digitChar (by omega)
    have i11 : isDigitCh (digitChar (mi / 10)) = true := isDigitCh_digitChar (by omega)
    have i12 : isDigitCh (digitChar (mi % 10)) = true := isDigitCh_digitChar (by omega)
    have i13 : isDigitCh (digitChar (ss / 10)) = true := isDigitCh_digitChar (by omega)
    have i14 : isDigitCh (digitChar (ss % 10)) = true := isDigitCh_digitChar (by omega)
    simp [i1, i2, i3, i4, i5, i6, i7, i8, i9, i10, i11, i12, i13, i14]

/-- C6: the timestamp renders the local wall-clock fields as
`YYYY-MM-DD-HH:MM:SS` — 19 characters, zero-padded, 24-hour clock — and it
does so faithfully (the fields parse back, so distinct local times render
distinctly); it is a function of the local time only, never of the UTC
time. -/
theorem timestamp_local_format (t : DateTime) (hv : ValidDT t) :
    (timestampOf t).length = 19 ∧
    parseTimestamp (timestampOf t) = some t ∧
    (∀ t', ValidDT t' → timestampOf t = timestampOf t' → t = t') ∧
    (∀ env : Env, timestamp env = timestampOf env.localTime ∧
      ∀ u, timestamp { env with utcTime := u } = timestamp env) := by
  refine ⟨?_, parse_timestampOf t hv, ?_, ?_⟩
  · show (timestampOf t).data.length = 19
    rw [timestampOf_data t hv]
    rfl
  · intro t' hv' heq
    have h1 := parse_timestampOf t hv
    have h2 := parse_timestampOf t' hv'
    rw [heq, h2] at h1
    exact (Option.some_inj.mp h1).symm
  · intro env
    exact ⟨rfl, fun u => rfl⟩

/-- Closed instance of C6 at the date-time 2022-02-02 22:22:22. -/
theorem timestamp_local_format_witness :
    parseTimestamp (timestampOf ⟨2022, 2, 2, 22, 22, 22⟩) =
      some ⟨2022, 2, 2, 22, 22, 22⟩ :=
  (timestamp_local_format ⟨2022, 2, 2, 22, 22, 22⟩ (by decide)).2.1

/-! ## Path component lemmas -/

theorem splitSlash_of_no47 {p : Bytes} (h : ∀ b ∈ p, b ≠ 47) : splitSlash p = (p, []) := by
  induction p with
  | nil => rfl
  | cons b rest ih =>
    have hb : b ≠ 47 := h b (List.mem_cons_self b rest)
    have hrest : splitSlash rest = (rest, []) := ih fun x hx => h x (List.mem_cons_of_mem b hx)
    simp [splitSlash, hrest, hb]

theorem pathComps_single {p : Bytes} (h : ∀ b ∈ p, b ≠ 47) (hne : p ≠ []) :
    pathComps p = [p] := by
  simp [pathComps, splitSlash_of_no47 h, hne]

theorem fileName_single {p : Bytes} (h : ∀ b ∈ p, b ≠ 47) (hne : p ≠ [])
    (h1 : p ≠ [46]) (h2 : p ≠ [46, 46]) : fileName p = some p := by
  simp [fileName, pathComps_single h hne, h1, h2, List.filter]

theorem rsplitDot_of_no46 {p : Bytes} (h : 46 ∉ p) : rsplitDot p = none := by
  induction p with
  | nil => rfl
  | cons b rest ih =>
    have hb : b ≠ 46 := fun hb => h (hb ▸ List.mem_cons_self b rest)
    have : rsplitDot rest = none := ih fun hx => h (List.mem_cons_of_mem b hx)
    simp [rsplitDot, this, hb]

theorem rsplitDot_append {xs ys : Bytes} (hx : 46 ∉ xs) (hy : 46 ∉ ys) :
    rsplitDot (xs ++ 46 :: ys) = some (xs, ys) := by
  induction xs with
  | nil => simp [rsplitDot, rsplitDot_of_no46 hy]
  | cons b rest ih =>
    have : rsplitDot (rest ++ 46 :: ys) = some (rest, ys) :=
      ih fun hm => hx (List.mem_cons_of_mem b hm)
    simp [rsplitDot, this]

theorem stemExt_split {xs ys : Bytes} (hx : 46 ∉ xs) (hy : 46 ∉ ys) (hne : xs ≠ []) :
    stemExt (xs ++ 46 :: ys) = (xs, some ys) := by
  simp [stemExt, rsplitDot_append hx hy, hne]

theorem stemExt_of_no46 {p : Bytes} (h : 46 ∉ p) : stemExt p = (p, none) := by
  simp [stemExt, rsplitDot_of_no46 h]

/-! ## ASCII round-trip lemmas -/

theorem utf8Char_ascii {c : Char} (h : c.toNat < 128) : utf8Char c = [c.toNat] := by
  simp [utf8Char, h]

theorem flatMap_utf8Char_ascii {l : List Char} (h : ∀ c ∈ l, c.toNat < 128) :
    l.flatMap utf8Char = l.map Char.toNat := by
  induction l with
  | nil => rfl
  | cons c rest ih =>
    have hc : c.toNat < 128 := h c (List.mem_cons_self c rest)
    rw [List.flatMap_cons, utf8Char_ascii hc,
      ih fun x hx => h x (List.mem_cons_of_mem c hx)]
    rfl

theorem utf8_ascii {s : String} (h : ∀ c ∈ s.data, c.toNat < 128) :
    utf8 s = s.data.map Char.toNat :=
  flatMap_utf8Char_ascii h

theorem utf8LossyF_ascii :
    ∀ (bs : Bytes) (f : Nat), bs.length ≤ f → (∀ b ∈ bs, b < 128) →
      utf8LossyF f bs = bs.map Char.ofNat := by
  intro bs
  induction bs with
  | nil => intro f _ _; cases f <;> rfl
  | cons b rest ih =>
    intro f hf h
    obtain ⟨g, rfl⟩ : ∃ g, f = g + 1 := ⟨f - 1, by simp at hf; omega⟩
    have hb : b < 128 := h b (List.mem_cons_self b rest)
    have hr : utf8LossyF g rest = rest.map Char.ofNat :=
      ih g (by simp at hf; omega) fun x hx => h x (List.mem_cons_of_mem b hx)
    simp [utf8LossyF, hb, hr]

theorem utf8Lossy_ascii {bs : Bytes} (h : ∀ b ∈ bs, b < 128) :
    utf8Lossy bs = bs.map Char.ofNat :=
  utf8LossyF_ascii bs bs.length (Nat.le_refl _) h

theorem map_ofNat_toNat (l : List Char) : l.map (Char.ofNat ∘ Char.toNat) = l := by
  induction l with
  | nil => rfl
  | cons c rest ih => simp only [List.map_cons, Function.comp, Char.ofNat_toNat, ih]

theorem lossyString_utf8_ascii {s : String} (h : ∀ c ∈ s.data, c.toNat < 128) :
    lossyString (utf8 s) = s := by
  have hm : ∀ b ∈ s.data.map Char.toNat, b < 128 := by
    intro b hb
    obtain ⟨c, hc, rfl⟩ := List.mem_map.mp hb
    exact h c hc
  rw [lossyString, utf8_ascii h, utf8Lossy_ascii hm, List.map_map, map_ofNat_toNat]

theorem utf8_append (s t : String) : utf8 (s ++ t) = utf8 s ++ utf8 t := by
  simp [utf8, String.data_append]

theorem utf8_asciiSafe_bytes {s : String} (hs : AsciiSafe s) :
    ∀ b ∈ utf8 s, b < 128 ∧ b ≠ 46 ∧ b ≠ 47 := by
  rw [utf8_ascii fun c hc => (hs c hc).1]
  intro b hb
  obtain ⟨c, hc, rfl⟩ := List.mem_map.mp hb
  exact hs c hc

theorem utf8_ne_nil {s : String} (h : s ≠ "") : utf8 s ≠ [] := by
  intro hnil
  apply h
  cases s with
  | mk data =>
    cases data with
    | nil => rfl
    | cons c cs =>
      rw [utf8] at hnil
      rw [List.flatMap_cons] at hnil
      have : utf8Char c ≠ [] := by
        rw [utf8Char]
        split
        · simp
        · split
          · simp
          · split <;> simp
      simp [List.append_eq_nil] at hnil
      exact absurd hnil.1 this

/-- C2: the destination filename obeys the construction rule
`stem ++ "." ++ timestamp ++ "." ++ fingerprint` with the extension, when
present, appended after one more `"."` — for any plain-ASCII stem and
extension, such as `foo`/`jpg` and `bar`. -/
theorem new_name_construction_rule (fs : FsTree) (s e ts hsh : String)
    (hs : AsciiSafe s) (he : AsciiSafe e) (hne : s ≠ "") :
    (isFile fs (utf8 (s ++ "." ++ e)) = true →
      new_name fs (utf8 (s ++ "." ++ e)) ts hsh =
        .ok (s ++ "." ++ ts ++ "." ++ hsh ++ "." ++ e)) ∧
    (isFile fs (utf8 s) = true →
      new_name fs (utf8 s) ts hsh = .ok (s ++ "." ++ ts ++ "." ++ hsh)) := by
  have hs128 : ∀ c ∈ s.data, c.toNat < 128 := fun c hc => (hs c hc).1
  have he128 : ∀ c ∈ e.data, c.toNat < 128 := fun c hc => (he c hc).1
  have hsb := utf8_asciiSafe_bytes hs
  have heb := utf8_asciiSafe_bytes he
  have hs46 : 46 ∉ utf8 s := fun hm => (hsb 46 hm).2.1 rfl
  have he46 : 46 ∉ utf8 e := fun hm => (heb 46 hm).2.1 rfl
  have hsnil : utf8 s ≠ [] := utf8_ne_nil hne
  constructor
  · intro hisf
    have hp : utf8 (s ++ "." ++ e) = utf8 s ++ 46 :: utf8 e := by
      rw [utf8_append, utf8_append]
      have hdot : utf8 "." = [46] := by decide
      rw [hdot]
      simp
    have hno47 : ∀ b ∈ utf8 (s ++ "." ++ e), b ≠ 47 := by
      rw [hp]
      intro b hb
      rcases List.mem_append.mp hb with hb | hb
      · exact (hsb b hb).2.2
      · rcases List.mem_cons.mp hb with rfl | hb
        · omega
        · exact (heb b hb).2.2
    obtain ⟨b0, bs0, hsbytes⟩ : ∃ b0 bs0, utf8 s = b0 :: bs0 := by
      cases hu : utf8 s with
      | nil => exact absurd hu hsnil
      | cons b0 bs0 => exact ⟨b0, bs0, rfl⟩
    have hb0 : b0 ≠ 46 := by
      have : b0 ∈ utf8 s := by rw [hsbytes]; exact List.mem_cons_self _ _
      exact (hsb b0 this).2.1
    have hpcons : utf8 (s ++ "." ++ e) = b0 :: (bs0 ++ 46 :: utf8 e) := by
      rw [hp, hsbytes]
      rfl
    have hnn : fileName (utf8 (s ++ "." ++ e)) = some (utf8 (s ++ "." ++ e)) := by
      apply fileName_single hno47
      · rw [hpcons]; simp
      · rw [hpcons]; intro hq; injection hq with ha hb; exact hb0 ha
      · rw [hpcons]; intro hq; injection hq with ha hb; exact hb0 ha
    have hse : stemExt (utf8 (s ++ "." ++ e)) = (utf8 s, some (utf8 e)) := by
      rw [hp]
      exact stemExt_split hs46 he46 hsnil
    have hfs : fileStem (utf8 (s ++ "." ++ e)) = some (utf8 s) := by
      simp [fileStem, hnn, hse]
    have hex : extension (utf8 (s ++ "." ++ e)) = some (utf8 e) := by
      simp [extension, hnn, hse]
    simp only [new_name, hisf, if_true, hfs, hex]
    simp only [lossyString_utf8_ascii hs128, lossyString_utf8_ascii he128]
  · intro hisf
    have hno47 : ∀ b ∈ utf8 s, b ≠ 47 := fun b hb => (hsb b hb).2.2
    have h1 : utf8 s ≠ [46] := fun hq => hs46 (hq ▸ List.mem_cons_self _ _)
    have h2 : utf8 s ≠ [46, 46] := fun hq => hs46 (hq ▸ List.mem_cons_self _ _)
    have hnn : fileName (utf8 s) = some (utf8 s) := fileName_single hno47 hsnil h1 h2
    have hse : stemExt (utf8 s) = (utf8 s, none) := stemExt_of_no46 hs46
    have hfs : fileStem (utf8 s) = some (utf8 s) := by
      simp [fileStem, hnn, hse]
    have hex : extension (utf8 s) = none := by
      simp [extension, hnn, hse]
    simp only [new_name, hisf, if_true, hfs, hex]
    simp only [lossyString_utf8_ascii hs128]

/-- Closed instance of C2 for `foo.jpg` and for the extension-less `bar`. -/
theorem new_name_construction_rule_witness :
    new_name (.dir [(asciiBytes "foo.jpg", .file []), (asciiBytes "bar", .file [])])
        (utf8 ("foo" ++ "." ++ "jpg")) "T" "H" =
      .ok ("foo" ++ "." ++ "T" ++ "." ++ "H" ++ "." ++ "jpg") ∧
    new_name (.dir [(asciiBytes "foo.jpg", .file []), (asciiBytes "bar", .file [])])
        (utf8 "bar") "T" "H" =
      .ok ("bar" ++ "." ++ "T" ++ "." ++ "H") :=
  ⟨(new_name_construction_rule
      (.dir [(asciiBytes "foo.jpg", .file []), (asciiBytes "bar", .file [])])
      "foo" "jpg" "T" "H" (by decide) (by decide) (by decide)).1 (by decide),
   (new_name_construction_rule
      (.dir [(asciiBytes "foo.jpg", .file []), (asciiBytes "bar", .file [])])
      "bar" "jpg" "T" "H" (by decide) (by decide) (by decide)).2 (by decide)⟩

/-! ## Resolution of dot-ended paths (C8) -/

theorem resolveComps_last_dots :
    ∀ (comps : List Bytes) (anc : List FsTree) (t : FsTree),
      (∀ a ∈ anc, isDirNode a) →
      (comps = [] → isDirNode t) →
      (∀ c, comps.getLast? = some c → c = [46] ∨ c = [46, 46]) →
      ∀ r, resolveComps anc t comps = some r → isDirNode r := by
  intro comps
  induction comps with
  | nil =>
    intro anc t hanc ht hlast r hr
    simp only [resolveComps, Option.some.injEq] at hr
    exact hr ▸ ht rfl
  | cons c rest ih =>
    intro anc t hanc ht hlast r hr
    cases t with
    | file cont => simp [resolveComps] at hr
    | dir es =>
      have hrest : ∀ c', rest.getLast? = some c' → c' = [46] ∨ c' = [46, 46] := by
        intro c' hc'
        cases rest with
        | nil => simp at hc'
        | cons r0 rs => exact hlast c' (by rw [List.getLast?_cons_cons]; exact hc')
      simp only [resolveComps] at hr
      by_cases hc1 : c = [46]
      · rw [if_pos hc1] at hr
        exact ih anc (.dir es) hanc (fun _ => ⟨es, rfl⟩) hrest r hr
      · rw [if_neg hc1] at hr
        by_cases hc2 : c = [46, 46]
        · rw [if_pos hc2] at hr
          cases anc with
          | nil => exact ih [] (.dir es) (by simp) (fun _ => ⟨es, rfl⟩) hrest r hr
          | cons a anc' =>
            exact ih anc' a (fun x hx => hanc x (List.mem_cons_of_mem a hx))
              (fun _ => hanc a (List.mem_cons_self a anc')) hrest r hr
        · rw [if_neg hc2] at hr
          cases hlk : lookupEntry c es with
          | none => rw [hlk] at hr; simp at hr
          | some u =>
            rw [hlk] at hr
            refine ih (.dir es :: anc) u ?_ ?_ hrest r hr
            · intro x hx
              rcases List.mem_cons.mp hx with rfl | hx
              · exact ⟨es, rfl⟩
              · exact hanc x hx
            · intro hrnil
              subst hrnil
              have := hlast c (by simp)
              tauto

theorem getLast_filter_dots {l : List Bytes}
    (hf : (l.filter (· ≠ [46])).getLast? = none ∨
      (l.filter (· ≠ [46])).getLast? = some [46, 46]) :
    ∀ c, l.getLast? = some c → c = [46] ∨ c = [46, 46] := by
  intro c hc
  rcases List.eq_nil_or_concat l with rfl | ⟨l', a, rfl⟩
  · simp at hc
  · simp only [List.concat_eq_append] at hf hc
    rw [List.getLast?_concat] at hc
    have hac : a = c := by injection hc
    rw [← hac]
    by_cases ha : a = [46]
    · exact Or.inl ha
    · right
      have hfc : (l' ++ [a]).filter (· ≠ [46]) = l'.filter (· ≠ [46]) ++ [a] := by
        rw [List.filter_append]
        congr 1
        simp [List.filter, ha]
      rw [hfc, List.getLast?_concat] at hf
      rcases hf with hf | hf
      · exact absurd hf (by simp)
      · injection hf

theorem fileName_none_last {p : Bytes} (h : fileName p = none) :
    ∀ c, (pathComps p).getLast? = some c → c = [46] ∨ c = [46, 46] := by
  apply getLast_filter_dots
  unfold fileName at h
  split at h
  · rename_i c0 heq
    split at h
    · rename_i hc
      exact Or.inr (hc ▸ heq)
    · exact absurd h (by simp)
  · rename_i heq
    exact Or.inl heq

/-- Any path that the is-file check accepts (in a directory-rooted tree) has
an extractable file stem. -/
theorem isFile_fileStem {es : List (Bytes × FsTree)} {p : Bytes}
    (h : isFile (.dir es) p = true) : ∃ st, fileStem p = some st := by
  cases hfn : fileName p with
  | some n => exact ⟨(stemExt n).1, by simp [fileStem, hfn]⟩
  | none =>
    exfalso
    unfold isFile resolvePath at h
    cases hr : resolveComps [] (.dir es) (pathComps p) with
    | none => rw [hr] at h; simp at h
    | some r =>
      rw [hr] at h
      have hdir : isDirNode r :=
        resolveComps_last_dots (pathComps p) [] (.dir es) (by simp)
          (fun _ => ⟨es, rfl⟩) (fileName_none_last hfn) r hr
      obtain ⟨es', rfl⟩ := hdir
      simp at h

/-- C8: under `new_name`'s own is-file precondition the "File has no name?"
branch is unreachable — every path that passes the is-file check has an
extractable stem, so the only error `new_name` can return is the
not-a-file one. -/
theorem new_name_no_name_unreachable (es : List (Bytes × FsTree)) (p : Bytes) (ts hsh : String) :
    (isFile (.dir es) p = true → ∃ st, fileStem p = some st) ∧
    ∀ msg, new_name (.dir es) p ts hsh = .error msg →
      msg = "uniqopy only works on files" := by
  refine ⟨fun h => isFile_fileStem h, ?_⟩
  intro msg hmsg
  simp only [new_name] at hmsg
  by_cases hisf : isFile (.dir es) p = true
  · rw [if_pos hisf] at hmsg
    obtain ⟨st, hst⟩ := isFile_fileStem hisf
    rw [hst] at hmsg
    cases hext : extension p <;> rw [hext] at hmsg <;> simp at hmsg
  · rw [if_neg hisf] at hmsg
    injection hmsg with hmsg
    exact hmsg.symm

/-- Closed instance of C8 at a concrete file. -/
theorem new_name_no_name_unreachable_witness :
    ∃ st, fileStem (asciiBytes "foo.jpg") = some st :=
  (new_name_no_name_unreachable [(asciiBytes "foo.jpg", .file [])]
    (asciiBytes "foo.jpg") "T" "H").1 (by decide)

/-- C10: a source filename whose stem or extension is not valid UTF-8 does
not make name construction fail — construction succeeds for every file, and
invalid bytes are decoded to the Unicode replacement character, as for the
file name `f\xFF.jpg`. -/
theorem new_name_lossy_total (es : List (Bytes × FsTree)) (p : Bytes) (ts hsh : String) :
    (isFile (.dir es) p = true → ∃ out, new_name (.dir es) p ts hsh = .ok out) ∧
    new_name (.dir [([102, 255, 46, 106, 112, 103], .file [])])
        [102, 255, 46, 106, 112, 103] ts hsh =
      .ok ("f�" ++ "." ++ ts ++ "." ++ hsh ++ "." ++ "jpg") := by
  constructor
  · intro h
    obtain ⟨st, hst⟩ := isFile_fileStem h
    simp only [new_name, h, if_true, hst]
    cases hext : extension p
    · exact ⟨_, rfl⟩
    · exact ⟨_, rfl⟩
  · have h1 : isFile (.dir [([102, 255, 46, 106, 112, 103], .file [])])
        [102, 255, 46, 106, 112, 103] = true := by decide
    have h2 : fileStem [102, 255, 46, 106, 112, 103] = some [102, 255] := by decide
    have h3 : extension [102, 255, 46, 106, 112, 103] = some [106, 112, 103] := by decide
    have h4 : lossyString [102, 255] = "f�" := by decide
    have h5 : lossyString [106, 112, 103] = "jpg" := by decide
    simp only [new_name, h1, if_true, h2, h3, h4, h5]

/-- Closed instance of C10 at the concrete non-UTF-8 file name. -/
theorem new_name_lossy_total_witness :
    ∃ out, new_name (.dir [([102, 255, 46, 106, 112, 103], .file [])])
      [102, 255, 46, 106, 112, 103] "T" "H" = .ok out :=
  (new_name_lossy_total [([102, 255, 46, 106, 112, 103], .file [])]
    [102, 255, 46, 106, 112, 103] "T" "H").1 (by decide)

/-! ## The dispatcher's branches -/

theorem main_usage {env : Env} (h : env.args.length ≠ 2) :
    main env = ⟨1, [], ["uniqopy version " ++ VERSION ++ "\n" ++ USAGE], env.fs⟩ := by
  rcases henv : env.args with _ | ⟨a, _ | ⟨f, _ | ⟨x, rest⟩⟩⟩
  · simp [main, henv]
  · simp [main, henv]
  · rw [henv] at h; simp at h
  · simp [main, henv]

theorem main_read_error {env : Env} {a f e : String} (ha : env.args = [a, f])
    (hm : md5_of_file env (utf8 f) = .error e) :
    main env = ⟨2, [], ["Error reading " ++ f ++ ": " ++ e], env.fs⟩ := by
  simp only [main, ha, hm]

theorem main_name_error {env : Env} {a f hsh e : String} (ha : env.args = [a, f])
    (hm : md5_of_file env (utf8 f) = .ok hsh)
    (hn : new_name env.fs (utf8 f) (timestamp env) hsh = .error e) :
    main env = ⟨3, [], [e], env.fs⟩ := by
  simp only [main, ha, hm, hn]

theorem main_copy_error {env : Env} {a f hsh dest e : String} (ha : env.args = [a, f])
    (hm : md5_of_file env (utf8 f) = .ok hsh)
    (hn : new_name env.fs (utf8 f) (timestamp env) hsh = .ok dest)
    (hc : copyFile env (utf8 f) dest = .error e) :
    main env = ⟨4, ["Copying " ++ f ++ " to " ++ dest], [e], env.fs⟩ := by
  simp only [main, ha, hm, hn, hc]

theorem main_success {env : Env} {a f hsh dest : String} {n : Nat} {fs' : FsTree}
    (ha : env.args = [a, f]) (hm : md5_of_file env (utf8 f) = .ok hsh)
    (hn : new_name env.fs (utf8 f) (timestamp env) hsh = .ok dest)
    (hc : copyFile env (utf8 f) dest = .ok (n, fs')) :
    main env = ⟨0, ["Copying " ++ f ++ " to " ++ dest,
      "Copyied " ++ toString n ++ " bytes"], [], fs'⟩ := by
  simp only [main, ha, hm, hn, hc]

/-- C3: the dispatcher maps every failure class to its own exit status and
stream — wrong argument count prints the usage text to stderr and exits 1
touching no file, a read/hash failure prints the I/O error text to stderr
and exits 2, a naming failure prints its message and exits 3, a copy
failure prints the I/O error and exits 4, and success prints the
announcement line and the byte count to stdout and exits 0. -/
theorem main_exit_status_map (env : Env) :
    (env.args.length ≠ 2 →
      main env = ⟨1, [], ["uniqopy version " ++ VERSION ++ "\n" ++ USAGE], env.fs⟩) ∧
    (∀ a f e, env.args = [a, f] → md5_of_file env (utf8 f) = .error e →
      main env = ⟨2, [], ["Error reading " ++ f ++ ": " ++ e], env.fs⟩) ∧
    (∀ a f hsh e, env.args = [a, f] → md5_of_file env (utf8 f) = .ok hsh →
      new_name env.fs (utf8 f) (timestamp env) hsh = .error e →
      main env = ⟨3, [], [e], env.fs⟩) ∧
    (∀ a f hsh dest e, env.args = [a, f] → md5_of_file env (utf8 f) = .ok hsh →
      new_name env.fs (utf8 f) (timestamp env) hsh = .ok dest →
      copyFile env (utf8 f) dest = .error e →
      main env = ⟨4, ["Copying " ++ f ++ " to " ++ dest], [e], env.fs⟩) ∧
    (∀ a f hsh dest n fs', env.args = [a, f] → md5_of_file env (utf8 f) = .ok hsh →
      new_name env.fs (utf8 f) (timestamp env) hsh = .ok dest →
      copyFile env (utf8 f) dest = .ok (n, fs') →
      main env = ⟨0, ["Copying " ++ f ++ " to " ++ dest,
        "Copyied " ++ toString n ++ " bytes"], [], fs'⟩) :=
  ⟨fun h => main_usage h,
   fun _ _ _ ha hm => main_read_error ha hm,
   fun _ _ _ _ ha hm hn => main_name_error ha hm hn,
   fun _ _ _ _ _ ha hm hn hc => main_copy_error ha hm hn hc,
   fun _ _ _ _ _ _ ha hm hn hc => main_success ha hm hn hc⟩

/-- Closed instances of C3's five branches at concrete environments. -/
theorem main_exit_status_map_witness :
    (main ⟨["uniqopy"], .dir [], ⟨2022, 2, 2, 22, 22, 22⟩, ⟨2022, 2, 2, 22, 22, 22⟩,
        none, none, "ENOENT", "EISDIR"⟩).exitCode = 1 ∧
    (main ⟨["uniqopy", "nope"], .dir [], ⟨2022, 2, 2, 22, 22, 22⟩, ⟨2022, 2, 2, 22, 22, 22⟩,
        none, none, "ENOENT", "EISDIR"⟩).exitCode = 2 ∧
    (main ⟨["uniqopy", ""], .file [], ⟨2022, 2, 2, 22, 22, 22⟩, ⟨2022, 2, 2, 22, 22, 22⟩,
        none, none, "ENOENT", "EISDIR"⟩).exitCode = 3 ∧
    (main ⟨["uniqopy", "foo.jpg"],
        .dir [(asciiBytes "foo.jpg", .file (asciiBytes "foobar"))],
        ⟨2022, 2, 2, 22, 22, 22⟩, ⟨2022, 2, 2, 22, 22, 22⟩,
        none, some "disk full", "ENOENT", "EISDIR"⟩).exitCode = 4 ∧
    (main ⟨["uniqopy", "foo.jpg"],
        .dir [(asciiBytes "foo.jpg", .file (asciiBytes "foobar"))],
        ⟨2022, 2, 2, 22, 22, 22⟩, ⟨2022, 2, 2, 22, 22, 22⟩,
        none, none, "ENOENT", "EISDIR"⟩).exitCode = 0 := by
  refine ⟨?_, ?_, ?_, ?_, ?_⟩
  · rw [(main_exit_status_map ⟨["uniqopy"], .dir [], ⟨2022, 2, 2, 22, 22, 22⟩,
      ⟨2022, 2, 2, 22, 22, 22⟩, none, none, "ENOENT", "EISDIR"⟩).1 (by decide)]
  · rw [(main_exit_status_map ⟨["uniqopy", "nope"], .dir [], ⟨2022, 2, 2, 22, 22, 22⟩,
      ⟨2022, 2, 2, 22, 22, 22⟩, none, none, "ENOENT", "EISDIR"⟩).2.1
      "uniqopy" "nope" "ENOENT" rfl rfl]
  · rw [(main_exit_status_map ⟨["uniqopy", ""], .file [], ⟨2022, 2, 2, 22, 22, 22⟩,
      ⟨2022, 2, 2, 22, 22, 22⟩, none, none, "ENOENT", "EISDIR"⟩).2.2.1
      "uniqopy" "" (md5Hex []) "File has no name?" rfl rfl rfl]
  · rw [(main_exit_status_map ⟨["uniqopy", "foo.jpg"],
      .dir [(asciiBytes "foo.jpg", .file (asciiBytes "foobar"))],
      ⟨2022, 2, 2, 22, 22, 22⟩, ⟨2022, 2, 2, 22, 22, 22⟩,
      none, some "disk full", "ENOENT", "EISDIR"⟩).2.2.2.1
      "uniqopy" "foo.jpg" (md5Hex (asciiBytes "foobar"))
      ("foo" ++ "." ++ "2022-02-02-22:22:22" ++ "." ++
        md5Hex (asciiBytes "foobar") ++ "." ++ "jpg")
      "disk full" rfl rfl rfl rfl]
  · rw [(main_exit_status_map ⟨["uniqopy", "foo.jpg"],
      .dir [(asciiBytes "foo.jpg", .file (asciiBytes "foobar"))],
      ⟨2022, 2, 2, 22, 22, 22⟩, ⟨2022, 2, 2, 22, 22, 22⟩,
      none, none, "ENOENT", "EISDIR"⟩).2.2.2.2
      "uniqopy" "foo.jpg" (md5Hex (asciiBytes "foobar"))
      ("foo" ++ "." ++ "2022-02-02-22:22:22" ++ "." ++
        md5Hex (asciiBytes "foobar") ++ "." ++ "jpg")
      6 (writeRoot (.dir [(asciiBytes "foo.jpg", .file (asciiBytes "foobar"))])
        (utf8 ("foo" ++ "." ++ "2022-02-02-22:22:22" ++ "." ++
          md5Hex (asciiBytes "foobar") ++ "." ++ "jpg"))
        (asciiBytes "foobar"))
      rfl rfl rfl rfl]

theorem md5_error_of_not_isFile {env : Env} {p : Bytes} (h : isFile env.fs p = false) :
    md5_of_file env p = .error env.enoent := by
  unfold isFile at h
  cases hr : resolvePath env.fs p with
  | none => simp [md5_of_file, hr]
  | some t =>
    cases t with
    | file c => rw [hr] at h; simp at h
    | dir es => simp [md5_of_file, hr]

/-- C4 counterexample: a directory operand is rejected with the literal
message "uniqopy only works on files", not "operand is not a file"; and a
path with no filename component (`..`) is likewise rejected by the is-file
check with that same message, never with a "no filename" error. -/
theorem new_name_error_text_counterexample :
    resolvePath (.dir [([100], .dir [])]) [100] = some (.dir []) ∧
    new_name (.dir [([100], .dir [])]) [100] "T" "H" =
      .error "uniqopy only works on files" ∧
    "uniqopy only works on files" ≠ "operand is not a file" ∧
    fileName [46, 46] = none ∧
    new_name (.dir [([100], .dir [])]) [46, 46] "T" "H" =
      .error "uniqopy only works on files" ∧
    "uniqopy only works on files" ≠ "no filename" := by
  refine ⟨rfl, rfl, by decide, by decide, rfl, by decide⟩

/-- C4 (amended): every path that fails the is-file check makes `new_name`
fail, with the message "uniqopy only works on files", and the whole
operation aborts without attempting a copy (in the full program such a path
already fails at the read step, exits 2, and leaves the filesystem
unchanged); the distinct message "File has no name?" belongs to paths with
no extractable stem, which never pass the is-file check. -/
theorem not_file_aborts (fs : FsTree) (p : Bytes) (ts hsh : String) (env : Env) :
    (isFile fs p = false →
      new_name fs p ts hsh = .error "uniqopy only works on files") ∧
    (∀ a f, env.args = [a, f] → isFile env.fs (utf8 f) = false →
      main env = ⟨2, [], ["Error reading " ++ f ++ ": " ++ env.enoent], env.fs⟩) ∧
    (∀ es, isFile (.dir es) p = true → fileStem p ≠ none) := by
  refine ⟨?_, ?_, ?_⟩
  · intro h
    simp [new_name, h]
  · intro a f ha hisf
    exact main_read_error ha (md5_error_of_not_isFile hisf)
  · intro es h hnone
    obtain ⟨st, hst⟩ := isFile_fileStem h
    rw [hst] at hnone
    exact Option.noConfusion hnone

/-- Closed instance of C4's amended statement at a directory operand. -/
theorem not_file_aborts_witness :
    new_name (.dir [([100], .dir [])]) [100] "T" "H" =
      .error "uniqopy only works on files" :=
  (not_file_aborts (.dir [([100], .dir [])]) [100] "T" "H"
    ⟨[], .dir [], ⟨2022, 2, 2, 22, 22, 22⟩, ⟨2022, 2, 2, 22, 22, 22⟩,
      none, none, "E", "E"⟩).1 (by decide)

/-- C9: whenever the copy step fails (exit status 4), the announcement line
`Copying <source> to <destination>` has already been written to standard
output, even though the filesystem is unchanged. -/
theorem announce_precedes_copy (env : Env) (h : (main env).exitCode = 4) :
    (∃ f dest, (main env).stdout = ["Copying " ++ f ++ " to " ++ dest]) ∧
    (main env).fs = env.fs := by
  rcases henv : env.args with _ | ⟨a, _ | ⟨f, _ | ⟨x, rest⟩⟩⟩
  · rw [main_usage (by rw [henv]; simp)] at h ⊢; simp at h
  · rw [main_usage (by rw [henv]; simp)] at h ⊢; simp at h
  · cases hm : md5_of_file env (utf8 f) with
    | error e => rw [main_read_error henv hm] at h; simp at h
    | ok hsh =>
      cases hn : new_name env.fs (utf8 f) (timestamp env) hsh with
      | error e => rw [main_name_error henv hm hn] at h; simp at h
      | ok dest =>
        cases hc : copyFile env (utf8 f) dest with
        | error e =>
          rw [main_copy_error henv hm hn hc]
          exact ⟨⟨f, dest, rfl⟩, rfl⟩
        | ok r =>
          rw [main_success henv hm hn (by rw [hc])] at h
          simp at h
  · rw [main_usage (by rw [henv]; simp)] at h ⊢; simp at h

/-! ## Frame lemmas for the copy (C7) -/

theorem lookupEntry_setEntry_self (name c : Bytes) (es : List (Bytes × FsTree)) :
    lookupEntry name (setEntry name c es) = some (.file c) := by
  induction es with
  | nil => simp [setEntry, lookupEntry]
  | cons e rest ih =>
    by_cases he : e.1 = name
    · simp [setEntry, he, lookupEntry]
    · simp [setEntry, he, lookupEntry, ih]

theorem lookupEntry_setEntry_other {k name : Bytes} (h : k ≠ name) (c : Bytes)
    (es : List (Bytes × FsTree)) :
    lookupEntry k (setEntry name c es) = lookupEntry k es := by
  have hnk : ¬ name = k := fun hq => h hq.symm
  induction es with
  | nil => simp [setEntry, lookupEntry, hnk]
  | cons e rest ih =>
    by_cases he : e.1 = name
    · simp [setEntry, he, lookupEntry, hnk]
    · simp [setEntry, he, lookupEntry, ih]

/-- Writing content `c0` at a root entry `d` that was not a directory
preserves the resolution of every path that resolved to a file of that same
content `c0`. -/
theorem resolve_preserve {es : List (Bytes × FsTree)} {d c0 : Bytes}
    (hd : ∀ es', lookupEntry d es ≠ some (.dir es')) :
    ∀ (comps : List Bytes) (anc anc' : List FsTree) (t t' : FsTree),
      RelW es d c0 t t' → List.Forall₂ (RelW es d c0) anc anc' →
      resolveComps anc t comps = some (.file c0) →
      resolveComps anc' t' comps = some (.file c0) := by
  intro comps
  induction comps with
  | nil =>
    intro anc anc' t t' hrel hanc hres
    simp only [resolveComps, Option.some.injEq] at hres
    rcases hrel with rfl | ⟨rfl, rfl⟩
    · simpa [resolveComps] using hres
    · exact absurd hres.symm (by simp)
  | cons c rest ih =>
    intro anc anc' t t' hrel hanc hres
    cases t with
    | file cont => simp [resolveComps] at hres
    | dir g =>
      obtain ⟨g', hg', hrel'⟩ :
          ∃ g', t' = .dir g' ∧
            (FsTree.dir g' = FsTree.dir g ∨
              (FsTree.dir g = FsTree.dir es ∧
                FsTree.dir g' = FsTree.dir (setEntry d c0 es))) := by
        rcases hrel with rfl | ⟨heq, rfl⟩
        · exact ⟨g, rfl, Or.inl rfl⟩
        · exact ⟨setEntry d c0 es, rfl, Or.inr ⟨heq, rfl⟩⟩
      subst hg'
      have hreld : RelW es d c0 (FsTree.dir g) (FsTree.dir g') := by
        rcases hrel' with h | h
        · exact Or.inl h
        · exact Or.inr ⟨h.1, h.2⟩
      simp only [resolveComps] at hres ⊢
      by_cases hc1 : c = [46]
      · rw [if_pos hc1] at hres ⊢
        exact ih anc anc' _ _ hreld hanc hres
      · rw [if_neg hc1] at hres ⊢
        by_cases hc2 : c = [46, 46]
        · rw [if_pos hc2] at hres ⊢
          cases hanc with
          | nil => exact ih [] [] _ _ hreld List.Forall₂.nil hres
          | cons hr htl => exact ih _ _ _ _ hr htl hres
        · rw [if_neg hc2] at hres ⊢
          rcases hrel' with hsame | ⟨hge, hge'⟩
          · -- untouched node: entries identical on both sides
            have : g' = g := by injection hsame
            subst this
            cases hlk : lookupEntry c g' with
            | none => rw [hlk] at hres; simp at hres
            | some u =>
              rw [hlk] at hres
              exact ih _ _ u u (Or.inl rfl) (List.Forall₂.cons (Or.inl rfl) hanc) hres
          · -- the rewritten root
            have hg : g = es := by injection hge
            have hg2 : g' = setEntry d c0 es := by injection hge'
            rw [hg] at hres
            rw [hg2]
            by_cases hcd : c = d
            · subst hcd
              cases hlk : lookupEntry c es with
              | none => rw [hlk] at hres; simp at hres
              | some u =>
                rw [hlk] at hres
                cases u with
                | dir es'' => exact absurd hlk (hd es'')
                | file x =>
                  have hx : rest = [] ∧ x = c0 := by
                    cases rest with
                    | nil =>
                      simp only [resolveComps, Option.some.injEq] at hres
                      exact ⟨rfl, by injection hres⟩
                    | cons r0 rs => simp [resolveComps] at hres
                  obtain ⟨rfl, rfl⟩ := hx
                  rw [lookupEntry_setEntry_self]
                  rfl
            · rw [lookupEntry_setEntry_other hcd]
              cases hlk : lookupEntry c es with
              | none => rw [hlk] at hres; simp at hres
              | some u =>
                rw [hlk] at hres
                exact ih _ _ u u (Or.inl rfl)
                  (List.Forall₂.cons (Or.inr ⟨rfl, rfl⟩) hanc) hres

theorem splitSlash_no47 (p : Bytes) :
    (∀ b ∈ (splitSlash p).1, b ≠ 47) ∧ ∀ c ∈ (splitSlash p).2, ∀ b ∈ c, b ≠ 47 := by
  induction p with
  | nil => simp [splitSlash]
  | cons x rest ih =>
    by_cases hx : x = 47
    · subst hx
      refine ⟨by simp [splitSlash], ?_⟩
      intro c hc b hb
      simp only [splitSlash, if_pos rfl] at hc
      rcases List.mem_cons.mp hc with rfl | hc
      · exact ih.1 b hb
      · exact ih.2 c hc b hb
    · constructor
      · intro b hb
        simp only [splitSlash, if_neg hx] at hb
        rcases List.mem_cons.mp hb with rfl | hb
        · exact hx
        · exact ih.1 b hb
      · intro c hc b hb
        simp only [splitSlash, if_neg hx] at hc
        exact ih.2 c hc b hb

theorem pathComps_no47 {p c : Bytes} (hc : c ∈ pathComps p) : ∀ b ∈ c, b ≠ 47 := by
  simp only [pathComps, List.mem_filter] at hc
  rcases List.mem_cons.mp hc.1 with rfl | hmem
  · exact (splitSlash_no47 p).1
  · exact (splitSlash_no47 p).2 c hmem

theorem rsplitDot_eq : ∀ {n a b : Bytes}, rsplitDot n = some (a, b) → n = a ++ 46 :: b := by
  intro n
  induction n with
  | nil => intro a b h; simp [rsplitDot] at h
  | cons x rest ih =>
    intro a b h
    simp only [rsplitDot] at h
    cases hr : rsplitDot rest with
    | some s =>
      rw [hr] at h
      obtain ⟨rfl, rfl⟩ : x :: s.1 = a ∧ s.2 = b := by
        injection h with h1
        exact ⟨congrArg Prod.fst h1, congrArg Prod.snd h1⟩
      have hrest := ih (a := s.1) (b := s.2) (by rw [hr])
      simp [hrest]
    | none =>
      rw [hr] at h
      by_cases hx : x = 46
      · rw [if_pos hx] at h
        obtain ⟨rfl, rfl⟩ : ([] : Bytes) = a ∧ rest = b := by
          injection h with h1
          exact ⟨congrArg Prod.fst h1, congrArg Prod.snd h1⟩
        simp [hx]
      · rw [if_neg hx] at h
        exact absurd h (by simp)

theorem stemExt_mem (n : Bytes) :
    (∀ x ∈ (stemExt n).1, x ∈ n) ∧
    (∀ ex, (stemExt n).2 = some ex → ∀ x ∈ ex, x ∈ n) := by
  unfold stemExt
  split
  · rename_i s hr
    have hn := rsplitDot_eq (n := n) (a := s.1) (b := s.2) (by rw [hr])
    by_cases hs : s.1 = []
    · rw [if_pos hs]
      simp
    · rw [if_neg hs]
      constructor
      · intro x hx
        rw [hn]
        exact List.mem_append.mpr (Or.inl hx)
      · intro ex hex x hx
        obtain rfl : s.2 = ex := by injection hex
        rw [hn]
        exact List.mem_append.mpr (Or.inr (List.mem_cons_of_mem _ hx))
  · exact ⟨fun x hx => hx, fun ex hex => by simp at hex⟩

theorem fileName_mem {p nm : Bytes} (h : fileName p = some nm) : nm ∈ pathComps p := by
  unfold fileName at h
  split at h
  · rename_i c heq
    split at h
    · exact absurd h (by simp)
    · obtain rfl : c = nm := by injection h
      exact List.mem_of_mem_filter (List.mem_of_getLast?_eq_some heq)
  · exact absurd h (by simp)

theorem fileStem_no47 {p st : Bytes} (h : fileStem p = some st) : ∀ b ∈ st, b ≠ 47 := by
  unfold fileStem at h
  cases hfn : fileName p with
  | none => rw [hfn] at h; simp at h
  | some nm =>
    rw [hfn] at h
    obtain rfl : (stemExt nm).1 = st := by injection h
    intro b hb
    exact pathComps_no47 (fileName_mem hfn) b ((stemExt_mem nm).1 b hb)

theorem extension_no47 {p ex : Bytes} (h : extension p = some ex) : ∀ b ∈ ex, b ≠ 47 := by
  unfold extension at h
  cases hfn : fileName p with
  | none => rw [hfn] at h; simp at h
  | some nm =>
    rw [hfn] at h
    have h' : (stemExt nm).2 = some ex := h
    intro b hb
    exact pathComps_no47 (fileName_mem hfn) b ((stemExt_mem nm).2 ex h' b hb)

/-- Encoding a character other than an ASCII byte `v` never produces the
byte `v` (multi-byte sequences only contain bytes at or above 128). -/
theorem utf8Char_ne_byte {c : Char} {v : Nat} (hv : v < 128) (h : c.toNat ≠ v) :
    ∀ b ∈ utf8Char c, b ≠ v := by
  intro b hb
  simp only [utf8Char] at hb
  split at hb
  · simp only [List.mem_singleton] at hb
    omega
  · split at hb
    · simp only [List.mem_cons, List.not_mem_nil, or_false] at hb
      rcases hb with rfl | rfl <;> omega
    · split at hb
      · simp only [List.mem_cons, List.not_mem_nil, or_false] at hb
        rcases hb with rfl | rfl | rfl <;> omega
      · simp only [List.mem_cons, List.not_mem_nil, or_false] at hb
        rcases hb with rfl | rfl | rfl | rfl <;> omega

theorem utf8_ne_byte {s : String} {v : Nat} (hv : v < 128)
    (h : ∀ c ∈ s.data, c.toNat ≠ v) : ∀ b ∈ utf8 s, b ≠ v := by
  intro b hb
  obtain ⟨c, hc, hbc⟩ := List.mem_flatMap.mp hb
  exact utf8Char_ne_byte hv (h c hc) b hbc

theorem decChars_mem : ∀ (f n : Nat), ∀ c ∈ decChars f n, ∃ m, m < 10 ∧ c = digitChar m := by
  intro f
  induction f with
  | zero => intro n c hc; simp [decChars] at hc
  | succ g ih =>
    intro n c hc
    simp only [decChars] at hc
    split at hc
    · rename_i hn
      simp at hc
      exact ⟨n, hn, hc⟩
    · rcases List.mem_append.mp hc with hc | hc
      · exact ih _ c hc
      · simp at hc
        exact ⟨n % 10, by omega, hc⟩

theorem timestampOf_chars (t : DateTime) :
    ∀ c ∈ (timestampOf t).data, (48 ≤ c.toNat ∧ c.toNat ≤ 57) ∨ c.toNat = 45 ∨ c.toNat = 58 := by
  intro c hc
  have hpad : ∀ w n : Nat, ∀ x ∈ pad w n, 48 ≤ x.toNat ∧ x.toNat ≤ 57 := by
    intro w n x hx
    rcases List.mem_append.mp hx with hx | hx
    · have h0 : x = '0' := List.eq_of_mem_replicate hx
      subst h0
      exact ⟨by decide, by decide⟩
    · obtain ⟨m, hm, rfl⟩ := decChars_mem _ _ x hx
      rw [digitChar_toNat hm]
      omega
  have hdata : (timestampOf t).data = pad 4 t.year ++ ('-' :: pad 2 t.month ++
      ('-' :: pad 2 t.day ++ ('-' :: pad 2 t.hour ++
        (':' :: pad 2 t.minute ++ ':' :: pad 2 t.second)))) := by
    simp [timestampOf]
  have hc' := hdata ▸ hc
  rcases List.mem_append.mp hc' with h | h
  · exact Or.inl (hpad _ _ c h)
  rcases List.mem_append.mp h with h | h
  · rcases List.mem_cons.mp h with rfl | h
    · exact Or.inr (Or.inl (by decide))
    · exact Or.inl (hpad _ _ c h)
  rcases List.mem_append.mp h with h | h
  · rcases List.mem_cons.mp h with rfl | h
    · exact Or.inr (Or.inl (by decide))
    · exact Or.inl (hpad _ _ c h)
  rcases List.mem_append.mp h with h | h
  · rcases List.mem_cons.mp h with rfl | h
    · exact Or.inr (Or.inl (by decide))
    · exact Or.inl (hpad _ _ c h)
  rcases List.mem_append.mp h with h | h
  · rcases List.mem_cons.mp h with rfl | h
    · exact Or.inr (Or.inr (by decide))
    · exact Or.inl (hpad _ _ c h)
  rcases List.mem_cons.mp h with rfl | h
  · exact Or.inr (Or.inr (by decide))
  · exact Or.inl (hpad _ _ c h)

theorem repl_toNat_ne47 : repl.toNat ≠ 47 := by decide

theorem charOfNat_ge128_toNat_ne47 {n : Nat} (h : 128 ≤ n) : (Char.ofNat n).toNat ≠ 47 := by
  unfold Char.ofNat
  split
  · rename_i hv
    have he : (Char.ofNatAux n hv).toNat = n := rfl
    rw [he]
    omega
  · decide

/-- Lossy decoding of bytes that avoid the `/` byte yields no `/`
character: ASCII bytes decode to themselves, multi-byte sequences decode at
or above code point 128, and failures decode to the replacement
character. -/
theorem utf8LossyF_chars_ne47 :
    ∀ (f : Nat) (bs : Bytes), (∀ b ∈ bs, b ≠ 47) → ∀ c ∈ utf8LossyF f bs, c.toNat ≠ 47 := by
  intro f
  induction f with
  | zero => intro bs hbs c hc; simp [utf8LossyF] at hc
  | succ g ih =>
    intro bs hbs c hc
    cases bs with
    | nil => simp [utf8LossyF] at hc
    | cons b rest =>
      have hb : b ≠ 47 := hbs b (List.mem_cons_self b rest)
      have hrest : ∀ x ∈ rest, x ≠ 47 := fun x hx => hbs x (List.mem_cons_of_mem b hx)
      simp only [utf8LossyF] at hc
      split at hc
      · rename_i hlt
        rcases List.mem_cons.mp hc with rfl | hc
        · rw [charToNat_ofNat_lt (by omega)]
          exact hb
        · exact ih rest hrest c hc
      · split at hc
        · rename_i hno1 hlead2
          simp only [Bool.and_eq_true, decide_eq_true_eq] at hlead2
          split at hc
          · rename_i c1 rest'
            have hrest' : ∀ x ∈ rest', x ≠ 47 :=
              fun x hx => hrest x (List.mem_cons_of_mem c1 hx)
            split at hc
            · rename_i hcont
              simp only [isCont, Bool.and_eq_true, decide_eq_true_eq] at hcont
              rcases List.mem_cons.mp hc with rfl | hc
              · exact charOfNat_ge128_toNat_ne47 (by omega)
              · exact ih rest' hrest' c hc
            · rcases List.mem_cons.mp hc with rfl | hc
              · exact repl_toNat_ne47
              · exact ih _ hrest c hc
          · simp only [List.mem_singleton] at hc
            subst hc
            exact repl_toNat_ne47
        · split at hc
          · rename_i hno1 hno2 hlead3
            simp only [Bool.and_eq_true, decide_eq_true_eq] at hlead3
            split at hc
            · rename_i c1 rest'
              have hrest' : ∀ x ∈ rest', x ≠ 47 :=
                fun x hx => hrest x (List.mem_cons_of_mem c1 hx)
              split at hc
              · rename_i hcond
                simp only [isCont, Bool.or_eq_true, Bool.and_eq_true,
                  decide_eq_true_eq] at hcond
                split at hc
                · rename_i c2 rest''
                  have hrest'' : ∀ x ∈ rest'', x ≠ 47 :=
                    fun x hx => hrest' x (List.mem_cons_of_mem c2 hx)
                  split at hc
                  · rename_i hcont2
                    simp only [isCont, Bool.and_eq_true, decide_eq_true_eq] at hcont2
                    rcases List.mem_cons.mp hc with rfl | hc
                    · refine charOfNat_ge128_toNat_ne47 ?_
                      rcases hcond with (⟨rfl, h1, h2⟩ | ⟨rfl, h1, h2⟩) | ⟨h1, h2, h3, h4⟩ <;>
                        omega
                    · exact ih rest'' hrest'' c hc
                  · rcases List.mem_cons.mp hc with rfl | hc
                    · exact repl_toNat_ne47
                    · exact ih _ hrest' c hc
                · simp only [List.mem_singleton] at hc
                  subst hc
                  exact repl_toNat_ne47
              · rcases List.mem_cons.mp hc with rfl | hc
                · exact repl_toNat_ne47
                · exact ih _ hrest c hc
            · simp only [List.mem_singleton] at hc
              subst hc
              exact repl_toNat_ne47
          · split at hc
            · rename_i hno1 hno2 hno3 hlead4
              simp only [Bool.and_eq_true, decide_eq_true_eq] at hlead4
              split at hc
              · rename_i c1 rest'
                have hrest' : ∀ x ∈ rest', x ≠ 47 :=
                  fun x hx => hrest x (List.mem_cons_of_mem c1 hx)
                split at hc
                · rename_i hcond
                  simp only [isCont, Bool.or_eq_true, Bool.and_eq_true,
                    decide_eq_true_eq] at hcond
                  split at hc
                  · rename_i c2 rest''
                    have hrest'' : ∀ x ∈ rest'', x ≠ 47 :=
                      fun x hx => hrest' x (List.mem_cons_of_mem c2 hx)
                    split at hc
                    · rename_i hcont2
                      simp only [isCont, Bool.and_eq_true, decide_eq_true_eq] at hcont2
                      split at hc
                      · rename_i c3 rest'''
                        have hrest''' : ∀ x ∈ rest''', x ≠ 47 :=
                          fun x hx => hrest'' x (List.mem_cons_of_mem c3 hx)
                        split at hc
                        · rename_i hcont3
                          simp only [isCont, Bool.and_eq_true, decide_eq_true_eq] at hcont3
                          rcases List.mem_cons.mp hc with rfl | hc
                          · refine charOfNat_ge128_toNat_ne47 ?_
                            rcases hcond with (⟨rfl, h1, h2⟩ | ⟨rfl, h1, h2⟩) |
                              ⟨h1, h2, h3, h4⟩ <;> omega
                          · exact ih rest''' hrest''' c hc
                        · rcases List.mem_cons.mp hc with rfl | hc
                          · exact repl_toNat_ne47
                          · exact ih _ hrest'' c hc
                      · simp only [List.mem_singleton] at hc
                        subst hc
                        exact repl_toNat_ne47
                    · rcases List.mem_cons.mp hc with rfl | hc
                      · exact repl_toNat_ne47
                      · exact ih _ hrest' c hc
                  · simp only [List.mem_singleton] at hc
                    subst hc
                    exact repl_toNat_ne47
                · rcases List.mem_cons.mp hc with rfl | hc
                  · exact repl_toNat_ne47
                  · exact ih _ hrest c hc
              · simp only [List.mem_singleton] at hc
                subst hc
                exact repl_toNat_ne47
            · rcases List.mem_cons.mp hc with rfl | hc
              · exact repl_toNat_ne47
              · exact ih _ hrest c hc

theorem lossyString_chars_ne47 {bs : Bytes} (h : ∀ b ∈ bs, b ≠ 47) :
    ∀ c ∈ (lossyString bs).data, c.toNat ≠ 47 :=
  utf8LossyF_chars_ne47 bs.length bs h

theorem hexChars_vals : ∀ c ∈ hexChars, c.toNat ≠ 47 ∧ c.toNat ≠ 46 := by decide

theorem new_name_ok_shape {fs : FsTree} {p : Bytes} {ts hsh dest : String}
    (h : new_name fs p ts hsh = .ok dest) :
    ∃ st, fileStem p = some st ∧
      (dest = lossyString st ++ "." ++ ts ++ "." ++ hsh ∨
        ∃ ex, extension p = some ex ∧
          dest = lossyString st ++ "." ++ ts ++ "." ++ hsh ++ "." ++ lossyString ex) := by
  unfold new_name at h
  split at h
  · split at h
    · exact absurd h (by simp)
    · rename_i st hst
      split at h
      · rename_i ex hex
        refine ⟨st, hst, Or.inr ⟨ex, hex, ?_⟩⟩
        injection h with h1
        exact h1.symm
      · refine ⟨st, hst, Or.inl ?_⟩
        injection h with h1
        exact h1.symm
  · exact absurd h (by simp)

theorem timestampOf_ne_empty (t : DateTime) : timestampOf t ≠ "" := by
  intro h
  have hd := congrArg String.data h
  have hdata : (timestampOf t).data = pad 4 t.year ++ ('-' :: pad 2 t.month ++
      ('-' :: pad 2 t.day ++ ('-' :: pad 2 t.hour ++
        (':' :: pad 2 t.minute ++ ':' :: pad 2 t.second)))) := by
    simp [timestampOf]
  rw [hdata] at hd
  simp at hd

/-- Every byte of a destination name built by `new_name` from a timestamp
and an MD5 digest avoids the path separator, and some byte differs from the
dot, so the destination is one ordinary path component. -/
theorem dest_bytes_facts {fs : FsTree} {p : Bytes} {lt : DateTime}
    {content : List Nat} {dest : String}
    (hn : new_name fs p (timestampOf lt) (md5Hex content) = .ok dest) :
    (∀ b ∈ utf8 dest, b ≠ 47) ∧ (∃ b ∈ utf8 dest, b ≠ 46) := by
  obtain ⟨st, hst, hshape⟩ := new_name_ok_shape hn
  have hdot : utf8 "." = [46] := rfl
  have hstc : ∀ c ∈ (lossyString st).data, c.toNat ≠ 47 :=
    lossyString_chars_ne47 (fileStem_no47 hst)
  have htsb : ∀ b ∈ utf8 (timestampOf lt), b ≠ 47 := by
    apply utf8_ne_byte (by omega)
    intro c hc
    rcases timestampOf_chars lt c hc with h | h | h <;> omega
  have htsb46 : ∀ b ∈ utf8 (timestampOf lt), b ≠ 46 := by
    apply utf8_ne_byte (by omega)
    intro c hc
    rcases timestampOf_chars lt c hc with h | h | h <;> omega
  have hmdb : ∀ b ∈ utf8 (md5Hex content), b ≠ 47 := by
    apply utf8_ne_byte (by omega)
    intro c hc
    exact (hexChars_vals c (md5Hex_chars c hc)).1
  have hts_ne : utf8 (timestampOf lt) ≠ [] := utf8_ne_nil (timestampOf_ne_empty lt)
  obtain ⟨b0, hb0⟩ : ∃ b0, b0 ∈ utf8 (timestampOf lt) := by
    cases hu : utf8 (timestampOf lt) with
    | nil => exact absurd hu hts_ne
    | cons x xs => exact ⟨x, List.mem_cons_self x xs⟩
  have memA : ∀ (s t : String) (b : Nat), b ∈ utf8 (s ++ t) → b ∈ utf8 s ∨ b ∈ utf8 t := by
    intro s t b hb
    rw [utf8_append] at hb
    exact List.mem_append.mp hb
  have memL : ∀ (s t : String) (b : Nat), b ∈ utf8 s → b ∈ utf8 (s ++ t) := by
    intro s t b hb
    rw [utf8_append]
    exact List.mem_append.mpr (Or.inl hb)
  have memR : ∀ (s t : String) (b : Nat), b ∈ utf8 t → b ∈ utf8 (s ++ t) := by
    intro s t b hb
    rw [utf8_append]
    exact List.mem_append.mpr (Or.inr hb)
  have hdotm : ∀ b : Nat, b ∈ utf8 "." → b = 46 := by
    intro b hb
    rw [hdot] at hb
    simpa using hb
  rcases hshape with rfl | ⟨ex, hex, rfl⟩
  · constructor
    · intro b hb
      rcases memA _ _ _ hb with h | h
      · rcases memA _ _ _ h with h | h
        · rcases memA _ _ _ h with h | h
          · rcases memA _ _ _ h with h | h
            · exact utf8_ne_byte (by omega) hstc b h
            · have := hdotm b h; omega
          · exact htsb b h
        · have := hdotm b h; omega
      · exact hmdb b h
    · exact ⟨b0, memL _ _ _ (memL _ _ _ (memR _ _ _ hb0)), htsb46 b0 hb0⟩
  · have hexc : ∀ c ∈ (lossyString ex).data, c.toNat ≠ 47 :=
      lossyString_chars_ne47 (extension_no47 hex)
    constructor
    · intro b hb
      rcases memA _ _ _ hb with h | h
      · rcases memA _ _ _ h with h | h
        · rcases memA _ _ _ h with h | h
          · rcases memA _ _ _ h with h | h
            · rcases memA _ _ _ h with h | h
              · rcases memA _ _ _ h with h | h
                · exact utf8_ne_byte (by omega) hstc b h
                · have := hdotm b h; omega
              · exact htsb b h
            · have := hdotm b h; omega
          · exact hmdb b h
        · have := hdotm b h; omega
      · exact utf8_ne_byte (by omega) hexc b h
    · exact ⟨b0, memL _ _ _ (memL _ _ _ (memL _ _ _ (memL _ _ _ (memR _ _ _ hb0)))),
        htsb46 b0 hb0⟩

theorem ne_dot_lists {l : Bytes} (h : ∃ b ∈ l, b ≠ 46) :
    l ≠ [] ∧ l ≠ [46] ∧ l ≠ [46, 46] := by
  obtain ⟨b, hb, hb46⟩ := h
  refine ⟨?_, ?_, ?_⟩ <;> intro hl <;> subst hl <;> simp at hb <;> omega

theorem resolvePath_dir_single {es : List (Bytes × FsTree)} {k : Bytes}
    (hno47 : ∀ b ∈ k, b ≠ 47) (hne : k ≠ []) (h1 : k ≠ [46]) (h2 : k ≠ [46, 46]) :
    resolvePath (.dir es) k = lookupEntry k es := by
  rw [resolvePath, pathComps_single hno47 hne]
  simp only [resolveComps, if_neg h1, if_neg h2]
  cases lookupEntry k es <;> simp [resolveComps]

theorem md5_ok_shape {env : Env} {p : Bytes} {hsh : String}
    (h : md5_of_file env p = .ok hsh) :
    ∃ c, resolvePath env.fs p = some (.file c) ∧ hsh = md5Hex c := by
  unfold md5_of_file at h
  split at h
  · rename_i c hres
    split at h
    · exact absurd h (by simp)
    · refine ⟨c, hres, ?_⟩
      injection h with h1
      exact h1.symm
  · exact absurd h (by simp)

theorem copyFile_ok_shape {env : Env} {src : Bytes} {destName : String} {n : Nat}
    {fs' : FsTree} (h : copyFile env src destName = .ok (n, fs')) :
    ∃ c, resolvePath env.fs src = some (.file c) ∧
      (∀ es', resolvePath env.fs (utf8 destName) ≠ some (.dir es')) ∧
      n = c.length ∧ fs' = writeRoot env.fs (utf8 destName) c := by
  unfold copyFile at h
  split at h
  · exact absurd h (by simp)
  · split at h
    · rename_i c hres
      split at h
      · exact absurd h (by simp)
      · rename_i hnd
        refine ⟨c, hres, ?_, ?_, ?_⟩
        · intro es' hq
          exact hnd es' hq
        · injection h with h1
          exact (congrArg Prod.fst h1).symm
        · injection h with h1
          exact (congrArg Prod.snd h1).symm
    · exact absurd h (by simp)

/-- C7: the source file is never deleted, moved, or modified — its content
resolves unchanged after any invocation — and the filesystem changes at
most by one regular file written at the root (no directory is created or
replaced, and every other root entry is untouched). -/
theorem source_file_preserved (env : Env) :
    (∀ a f c, env.args = [a, f] →
      resolvePath env.fs (utf8 f) = some (.file c) →
      resolvePath (main env).fs (utf8 f) = some (.file c)) ∧
    ((main env).fs = env.fs ∨
      ∃ (name content : Bytes) (es : List (Bytes × FsTree)),
        env.fs = .dir es ∧
        (∀ es', lookupEntry name es ≠ some (.dir es')) ∧
        (main env).fs = .dir (setEntry name content es) ∧
        ∀ k, k ≠ name → lookupEntry k (setEntry name content es) = lookupEntry k es) := by
  have key : (main env).fs = env.fs ∨
      ∃ (a0 f0 : String) (c0 : Bytes) (es : List (Bytes × FsTree)) (dest : String),
        env.args = [a0, f0] ∧ env.fs = .dir es ∧
        resolvePath env.fs (utf8 f0) = some (.file c0) ∧
        (∀ es', lookupEntry (utf8 dest) es ≠ some (.dir es')) ∧
        (main env).fs = .dir (setEntry (utf8 dest) c0 es) := by
    rcases henv : env.args with _ | ⟨a0, _ | ⟨f0, _ | ⟨x, r⟩⟩⟩
    · exact Or.inl (by rw [main_usage (by rw [henv]; simp)])
    · exact Or.inl (by rw [main_usage (by rw [henv]; simp)])
    · cases hm : md5_of_file env (utf8 f0) with
      | error e => exact Or.inl (by rw [main_read_error henv hm])
      | ok hsh =>
        cases hn : new_name env.fs (utf8 f0) (timestamp env) hsh with
        | error e => exact Or.inl (by rw [main_name_error henv hm hn])
        | ok dest =>
          cases hc : copyFile env (utf8 f0) dest with
          | error e => exact Or.inl (by rw [main_copy_error henv hm hn hc])
          | ok res =>
            obtain ⟨n, fs'⟩ := res
            have hmain : (main env).fs = fs' := by
              rw [main_success henv hm hn hc]
            obtain ⟨c0, hrs, hnd, hlen, hfs'⟩ := copyFile_ok_shape hc
            obtain ⟨cm, hrm, hhsh⟩ := md5_ok_shape hm
            have hcc : cm = c0 := by
              rw [hrm] at hrs
              injection hrs with h1
              injection h1
            subst hcc
            subst hhsh
            have hn' : new_name env.fs (utf8 f0) (timestampOf env.localTime)
                (md5Hex cm) = .ok dest := hn
            obtain ⟨hno47, hex46⟩ := dest_bytes_facts hn'
            obtain ⟨hne, h1, h2⟩ := ne_dot_lists hex46
            cases hfse : env.fs with
            | file x =>
              refine Or.inl ?_
              have hxx : fs' = env.fs := by
                rw [hfs', hfse]
                rfl
              rw [hmain, hxx]
              exact hfse
            | dir es =>
              have hrd : resolvePath env.fs (utf8 dest) = lookupEntry (utf8 dest) es := by
                rw [hfse]
                exact resolvePath_dir_single hno47 hne h1 h2
              have hdnd : ∀ es', lookupEntry (utf8 dest) es ≠ some (.dir es') := by
                intro es' hq
                exact hnd es' (by rw [hrd, hq])
              have hfs'2 : fs' = .dir (setEntry (utf8 dest) cm es) := by
                rw [hfs', hfse]
                rfl
              rw [hfse] at hrs
              exact Or.inr ⟨a0, f0, cm, es, dest, rfl, rfl, hrs, hdnd,
                by rw [hmain, hfs'2]⟩
    · exact Or.inl (by rw [main_usage (by rw [henv]; simp)])
  rcases key with hfs | ⟨a0, f0, c0, es, dest, ha0, hfse, hrs, hdnd, hmainfs⟩
  · exact ⟨fun a f c _ hres => by rw [hfs]; exact hres, Or.inl hfs⟩
  · constructor
    · intro a f c ha hres
      have hff : f = f0 := by
        rw [ha] at ha0
        injection ha0 with _ h3
        injection h3 with h4
      subst hff
      have hcc0 : c = c0 := by
        rw [hres] at hrs
        injection hrs with h1
        injection h1
      subst hcc0
      rw [hmainfs]
      rw [hfse] at hres
      rw [resolvePath] at hres ⊢
      exact resolve_preserve hdnd (pathComps (utf8 f)) [] []
        (.dir es) (.dir (setEntry (utf8 dest) c es))
        (Or.inr ⟨rfl, rfl⟩) List.Forall₂.nil hres
    · exact Or.inr ⟨utf8 dest, c0, es, hfse, hdnd, hmainfs,
        fun k hk => lookupEntry_setEntry_other hk c0 es⟩

/-- Closed instance of C7 at a concrete successful copy. -/
theorem source_file_preserved_witness :
    resolvePath (main ⟨["uniqopy", "foo.jpg"],
        .dir [(asciiBytes "foo.jpg", .file (asciiBytes "foobar"))],
        ⟨2022, 2, 2, 22, 22, 22⟩, ⟨2022, 2, 2, 22, 22, 22⟩,
        none, none, "ENOENT", "EISDIR"⟩).fs (utf8 "foo.jpg") =
      some (.file (asciiBytes "foobar")) :=
  (source_file_preserved ⟨["uniqopy", "foo.jpg"],
      .dir [(asciiBytes "foo.jpg", .file (asciiBytes "foobar"))],
      ⟨2022, 2, 2, 22, 22, 22⟩, ⟨2022, 2, 2, 22, 22, 22⟩,
      none, none, "ENOENT", "EISDIR"⟩).1
    "uniqopy" "foo.jpg" (asciiBytes "foobar") rfl rfl

/-- Closed instance of C9 at a concrete environment whose copy step
fails. -/
theorem announce_precedes_copy_witness :
    ∃ f dest,
      (main ⟨["uniqopy", "foo.jpg"],
        .dir [(asciiBytes "foo.jpg", .file (asciiBytes "foobar"))],
        ⟨2022, 2, 2, 22, 22, 22⟩, ⟨2022, 2, 2, 22, 22, 22⟩,
        none, some "disk full", "ENOENT", "EISDIR"⟩).stdout =
        ["Copying " ++ f ++ " to " ++ dest] :=
  (announce_precedes_copy _ (by decide)).1

end Uniqopy
